import Mathlib

/-!
The AHIN hash chain and its Merkle batching (backend/src/services/ahinChain.service.js)

Shallow embedding of `AHINChainService`: the pending queue, `buildBlock`,
`calculateMerkleRoot`, `generateMerkleProof` and `_generateProof`.

Digests are the hex strings returned by `ethers.keccak256`; the service only
compares them with `<` and `===`, so they are modelled by a type `D` carrying a
linear order.  `keccak256` itself is kept abstract: the general results hold for any
hash function, and concrete runs are evaluated with the small hash `toyEthers`.
-/

namespace AHIN

/-- The calls into the `ethers` library and `JSON.stringify` that the service makes.
`D` is the type of digests, `B` the type of byte strings, `P` the type of
transaction payloads. -/
structure Ethers (D B P : Type) where
  /-- The constant `ethers.ZeroHash`. -/
  ZeroHash : D
  /-- The function `ethers.keccak256`. -/
  keccak256 : B → D
  /-- The bytes `ethers.concat([x, y])`. -/
  concat : D → D → B
  /-- The bytes `ethers.toUtf8Bytes(JSON.stringify(txData))`. -/
  payloadBytes : P → B
  /-- The bytes `ethers.toUtf8Bytes(JSON.stringify({ merkleRoot, prevHash, timestamp }))`. -/
  headerBytes : D → D → Nat → B

variable {D B P : Type} [LinearOrder D]

/-- The `for (let i = 0; i < leaves.length; i += 2)` loop of `calculateMerkleRoot`,
started at index `i` with `newLevel` as built so far. -/
def calculateMerkleRoot_for (E : Ethers D B P) (leaves : List D) (i : Nat)
    (newLevel : List D) : List D :=
  if h : i < leaves.length then
    let left := leaves[i]
    let right := if h1 : i + 1 < leaves.length then leaves[i + 1] else left
    let combined := if left < right then E.concat left right else E.concat right left
    calculateMerkleRoot_for E leaves (i + 2) (newLevel ++ [E.keccak256 combined])
  else newLevel
termination_by leaves.length - i

theorem calculateMerkleRoot_for_length (E : Ethers D B P) (leaves : List D) (i : Nat)
    (newLevel : List D) :
    (calculateMerkleRoot_for E leaves i newLevel).length
      = newLevel.length + (leaves.length - i + 1) / 2 := by
  induction i, newLevel using calculateMerkleRoot_for.induct E leaves with
  | case1 i newLevel h left right combined ih =>
    rw [calculateMerkleRoot_for, dif_pos h]
    show (calculateMerkleRoot_for E leaves (i + 2) (newLevel ++ [E.keccak256 combined])).length = _
    rw [ih]
    simp only [List.length_append, List.length_singleton]
    omega
  | case2 i newLevel h =>
    rw [calculateMerkleRoot_for, dif_neg h]
    omega

/-- The method `calculateMerkleRoot(leaves)`: the zero hash for no leaves, the leaf itself
for one leaf, otherwise the root of the level that the `for` loop builds. -/
def calculateMerkleRoot (E : Ethers D B P) (leaves : List D) : D :=
  if leaves.length = 0 then E.ZeroHash
  else if h1 : leaves.length = 1 then leaves[0]
  else calculateMerkleRoot E (calculateMerkleRoot_for E leaves 0 [])
termination_by leaves.length
decreasing_by
  rw [calculateMerkleRoot_for_length]
  simp only [List.length_nil]
  omega

/-- The `for` loop inside the `while` loop of `_generateProof`, started at index `i`
with `proof` and `newLevel` as built so far; returns both. -/
def _generateProof_for (E : Ethers D B P) (currentLevel : List D) (currentIndex : Nat)
    (i : Nat) (proof newLevel : List D) : List D × List D :=
  if h : i < currentLevel.length then
    let left := currentLevel[i]
    let right := if h1 : i + 1 < currentLevel.length then currentLevel[i + 1] else left
    let proof1 :=
      if i = currentIndex ∨ i + 1 = currentIndex then
        let siblingIndex := if i = currentIndex then i + 1 else i
        if h2 : siblingIndex < currentLevel.length then proof ++ [currentLevel[siblingIndex]]
        else proof
      else proof
    let combined := if left < right then E.concat left right else E.concat right left
    _generateProof_for E currentLevel currentIndex (i + 2) proof1
      (newLevel ++ [E.keccak256 combined])
  else (proof, newLevel)
termination_by currentLevel.length - i

theorem _generateProof_for_snd (E : Ethers D B P) (currentLevel : List D) (currentIndex : Nat)
    (i : Nat) (proof newLevel : List D) :
    (_generateProof_for E currentLevel currentIndex i proof newLevel).2
      = calculateMerkleRoot_for E currentLevel i newLevel := by
  induction i, proof, newLevel using _generateProof_for.induct E currentLevel currentIndex with
  | case1 i proof newLevel h left right proof1 combined ih =>
    rw [_generateProof_for, dif_pos h, calculateMerkleRoot_for, dif_pos h]
    exact ih
  | case2 i proof newLevel h =>
    rw [_generateProof_for, dif_neg h, calculateMerkleRoot_for, dif_neg h]

/-- The variables of `_generateProof` that the `while` loop updates. -/
structure ProofState (D : Type) where
  proof : List D
  currentLevel : List D
  currentIndex : Nat

/-- One pass through the body of `while (currentLevel.length > 1)`. -/
def _generateProof_body (E : Ethers D B P) (s : ProofState D) : ProofState D :=
  let r := _generateProof_for E s.currentLevel s.currentIndex 0 s.proof []
  { proof := r.1, currentLevel := r.2, currentIndex := s.currentIndex / 2 }

/-- The loop `while (currentLevel.length > 1)` of `_generateProof`. -/
def _generateProof_while (E : Ethers D B P) (s : ProofState D) : ProofState D :=
  if 1 < s.currentLevel.length then _generateProof_while E (_generateProof_body E s) else s
termination_by s.currentLevel.length
decreasing_by
  simp only [_generateProof_body, _generateProof_for_snd, calculateMerkleRoot_for_length,
    List.length_nil]
  omega

/-- The method `_generateProof(leaves, index)`: the `proof` left by the `while` loop. -/
def _generateProof (E : Ethers D B P) (leaves : List D) (index : Nat) : List D :=
  (_generateProof_while E { proof := [], currentLevel := leaves, currentIndex := index }).proof

/-- An entry of `pendingTransactions`. -/
structure Transaction (D P : Type) where
  id : D
  data : P
  timestamp : Nat

/-- An entry of `block.transactions`: `{ id: tx.id, data: tx.data }`. -/
structure BlockTransaction (D P : Type) where
  id : D
  data : P

/-- A block of the chain. -/
structure Block (D P : Type) where
  blockNumber : Nat
  merkleRoot : D
  prevHash : D
  timestamp : Nat
  transactions : List (BlockTransaction D P)
  transactionCount : Nat
  hash : D

/-- The fields of `AHINChainService`. -/
structure AHINChainService (D P : Type) where
  chain : List (Block D P)
  pendingTransactions : List (Transaction D P)

/-- The state set up by the constructor. -/
def AHINChainService.new : AHINChainService D P :=
  { chain := [], pendingTransactions := [] }

/-- The method `addTransaction(txData)`, with `now` the value of `Date.now()`: the returned id
and the service afterwards. -/
def addTransaction (E : Ethers D B P) (txData : P) (now : Nat) (s : AHINChainService D P) :
    D × AHINChainService D P :=
  let transaction : Transaction D P :=
    { id := E.keccak256 (E.payloadBytes txData), data := txData, timestamp := now }
  (transaction.id, { s with pendingTransactions := s.pendingTransactions ++ [transaction] })

/-- The value of `parseInt(process.env.AHIN_BATCH_SIZE) || 100`, where `parsed` is the
result of `parseInt` (`none` for `NaN`). -/
def batchSize (parsed : Option Int) : Int :=
  match parsed with
  | none => 100
  | some n => if n = 0 then 100 else n

/-- The method `buildBlock()`, with `parsed` the result of `parseInt(process.env.AHIN_BATCH_SIZE)` and
`now` the value of `Date.now()`: the returned block (`none` for `null`) and the service
afterwards. `splice(0, n)` removes and returns the first `n` entries, none when `n < 0`. -/
def buildBlock (E : Ethers D B P) (parsed : Option Int) (now : Nat) (s : AHINChainService D P) :
    Option (Block D P) × AHINChainService D P :=
  if s.pendingTransactions.length = 0 then (none, s)
  else
    let deleteCount := (batchSize parsed).toNat
    let transactions := s.pendingTransactions.take deleteCount
    let pendingTransactions := s.pendingTransactions.drop deleteCount
    let leaves := transactions.map (fun tx => tx.id)
    let merkleRoot := calculateMerkleRoot E leaves
    let prevHash :=
      if h : s.chain.length > 0 then s.chain[s.chain.length - 1].hash else E.ZeroHash
    let block : Block D P :=
      { blockNumber := s.chain.length + 1
        merkleRoot := merkleRoot
        prevHash := prevHash
        timestamp := now
        transactions := transactions.map (fun tx => { id := tx.id, data := tx.data })
        transactionCount := transactions.length
        hash := E.keccak256 (E.headerBytes merkleRoot prevHash now) }
    (some block, { chain := s.chain ++ [block], pendingTransactions := pendingTransactions })

/-- The method `generateMerkleProof(txId)`; `none` stands for `null`. Inside the found block
`findIndex` always finds `txId`, so its result is a valid index. -/
def generateMerkleProof (E : Ethers D B P) (s : AHINChainService D P) (txId : D) :
    Option (List D) :=
  match s.chain.find? (fun b => b.transactions.any (fun tx => decide (tx.id = txId))) with
  | none => none
  | some block =>
    let leaves := block.transactions.map (fun tx => tx.id)
    let index := leaves.findIdx (fun id => decide (id = txId))
    some (_generateProof E leaves index)

/-- A call of one of the two state-changing methods of the service. -/
inductive Call (P : Type) where
  | addTransaction (txData : P) (now : Nat)
  | buildBlock (parsed : Option Int) (now : Nat)

/-- The service after a call. -/
def Call.apply (E : Ethers D B P) (s : AHINChainService D P) : Call P → AHINChainService D P
  | .addTransaction txData now => (AHIN.addTransaction E txData now s).2
  | .buildBlock parsed now => (AHIN.buildBlock E parsed now s).2

/-- The service after a sequence of calls, starting from a freshly constructed one. -/
def run (E : Ethers D B P) (calls : List (Call P)) : AHINChainService D P :=
  calls.foldl (Call.apply E) AHINChainService.new

/-- The states reachable from the empty service by `addTransaction` and `buildBlock`. -/
def Reachable (E : Ethers D B P) (s : AHINChainService D P) : Prop :=
  ∃ calls : List (Call P), s = run E calls

/-- The sorted-pair rule in the words of the spec:
`digest(min(left,right) ‖ max(left,right))`. -/
def combine (E : Ethers D B P) (left right : D) : D :=
  E.keccak256 (E.concat (min left right) (max left right))

/-- Modelled from the spec: `verify(leaf, siblings, root)`, which re-derives the root by
combining `leaf` with each sibling in order under the sorted-pair rule and compares the
result with `root`. The verifier runs on the external ledger; its code is not among the
sources. -/
def verify (E : Ethers D B P) (leaf : D) (siblings : List D) (root : D) : Bool :=
  decide (siblings.foldl (combine E) leaf = root)

/-- One reduction step in the words of the spec: the list of `ceil(len/2)` digests whose
`j`-th entry combines `level[2j]` with `level[2j+1]`, or with itself when `2j+1` is out of
range. -/
def reduceLevel (E : Ethers D B P) (level : List D) : List D :=
  List.ofFn (fun j : Fin ((level.length + 1) / 2) =>
    have h : 2 * j.val < level.length := by omega
    if h1 : 2 * j.val + 1 < level.length then combine E level[2 * j.val] level[2 * j.val + 1]
    else combine E level[2 * j.val] level[2 * j.val])

theorem reduceLevel_length (E : Ethers D B P) (level : List D) :
    (reduceLevel E level).length = (level.length + 1) / 2 := by
  simp [reduceLevel]

/-- The iterative reduction in the words of the spec: reduce the level until one digest
remains. -/
def reduceUntilOne (E : Ethers D B P) (level : List D) : List D :=
  if 2 ≤ level.length then reduceUntilOne E (reduceLevel E level) else level
termination_by level.length
decreasing_by
  rw [reduceLevel_length]
  omega

/-- The level above `level`, by recursion on the list: neighbours are combined two by
two and a last element left alone is combined with itself. -/
def pairUp (E : Ethers D B P) : List D → List D
  | [] => []
  | [a] => [combine E a a]
  | a :: b :: rest => combine E a b :: pairUp E rest

/-- What one pass of the `for` loop of `_generateProof` appends to `proof` when the
current index is `k`, by recursion on the level. -/
def siblingOf : List D → Nat → List D
  | [], _ => []
  | [a], k => if k = 1 then [a] else []
  | a :: b :: rest, k => if k = 0 then [b] else if k = 1 then [a] else siblingOf rest (k - 2)

/-- The hash that `buildBlock` stores as `prevHash`: the last block's `hash`, or `zero`
for an empty chain. -/
def lastHash (zero : D) (chain : List (Block D P)) : D :=
  match chain.getLast? with
  | some last => last.hash
  | none => zero

/-- Linkage read from the head of the chain: the first `prevHash` is `h0` and every
later `prevHash` is the `hash` of the block before. -/
def LinkedFrom (h0 : D) : List (Block D P) → Prop
  | [] => True
  | b :: rest => b.prevHash = h0 ∧ LinkedFrom b.hash rest

/-- What `buildBlock` establishes about the fields of the block it assembles. -/
def BlockBuilt (E : Ethers D B P) (b : Block D P) : Prop :=
  b.merkleRoot = calculateMerkleRoot E (b.transactions.map (fun tx => tx.id)) ∧
  b.hash = E.keccak256 (E.headerBytes b.merkleRoot b.prevHash b.timestamp) ∧
  b.transactionCount = b.transactions.length

/-- A small hash over the naturals, for evaluating the definitions on concrete inputs. -/
def toyEthers : Ethers Nat (List Nat) Nat where
  ZeroHash := 0
  keccak256 := fun bs => bs.foldl (fun acc b => 10 * acc + b + 100) 0
  concat := fun x y => [x, y]
  payloadBytes := fun p => [p]
  headerBytes := fun m p t => [m, p, t]

/-- What the body of the `for` loop of `_generateProof` leaves in `proof` at index `i`. -/
def pushSibling (currentLevel : List D) (currentIndex i : Nat) (proof : List D) : List D :=
  if i = currentIndex ∨ i + 1 = currentIndex then
    if h2 : (if i = currentIndex then i + 1 else i) < currentLevel.length then
      proof ++ [currentLevel[if i = currentIndex then i + 1 else i]]
    else proof
  else proof

/-- The calls used to evaluate the service on a concrete run: three payloads, a block,
two more payloads, a second block. -/
def sampleCalls : List (Call Nat) :=
  [.addTransaction 1 10, .addTransaction 2 11, .addTransaction 3 12, .buildBlock none 20,
   .addTransaction 4 30, .addTransaction 5 31, .buildBlock (some 100) 40]

/-- Calls after which one id sits in two blocks: payload 1 is enqueued and committed
alone, then enqueued again between payloads 2 and 3. -/
def duplicateCalls : List (Call Nat) :=
  [.addTransaction 1 10, .buildBlock none 20,
   .addTransaction 2 30, .addTransaction 1 31, .addTransaction 3 32, .buildBlock none 40]

/-- Calls that commit a single payload. -/
def singleCalls : List (Call Nat) :=
  [.addTransaction 7 1, .buildBlock none 2]

/-- How the external ledger answers the one commit of a cycle of `anchorPendingBlocks`:
both awaits resolve and the receipt carries `receiptHash`, or
`await this.anchor.anchorBlock(...)` throws, or `await tx.wait()` throws. -/
inductive CommitOutcome (R : Type) where
  | committed (receiptHash : R)
  | anchorBlockRejected
  | waitFailed

/-- The exception thrown inside the `try` block of `anchorPendingBlocks`, by the await
that raised it. -/
inductive AnchorError where
  | anchorBlock
  | wait
  deriving DecidableEq

/-- The arguments of one call of `this.anchor.anchorBlock`. -/
structure AnchorCall (D M : Type) where
  merkleRoot : D
  transactionCount : Nat
  metadataURI : M

/-- The object `{ blockNumber, txHash }` that `anchorPendingBlocks` returns. -/
structure AnchorResult (R : Type) where
  blockNumber : Nat
  txHash : R

/-- What a cycle of `anchorPendingBlocks` reads and changes: the singleton
`ahinChainService` and the calls of `anchorBlock` sent to the contract so far. -/
structure AnchorState (D P M : Type) where
  chainService : AHINChainService D P
  anchorCalls : List (AnchorCall D M)

/-- The `try` block of `anchorPendingBlocks`. `uri` forms the metadata URI from the block
hash; `Except.error` is an exception that leaves the block. The result is `none` where
the code returns without a value. -/
def anchorPendingBlocks_try {M R : Type} (E : Ethers D B P) (uri : D → M)
    (parsed : Option Int) (now : Nat) (outcome : CommitOutcome R) (s : AnchorState D P M) :
    Except AnchorError (Option (AnchorResult R)) × AnchorState D P M :=
  match buildBlock E parsed now s.chainService with
  | (none, chainService) => (.ok none, { s with chainService := chainService })
  | (some block, chainService) =>
    let metadataURI := uri block.hash
    let s1 : AnchorState D P M :=
      { chainService := chainService
        anchorCalls := s.anchorCalls ++
          [{ merkleRoot := block.merkleRoot, transactionCount := block.transactionCount,
             metadataURI := metadataURI }] }
    match outcome with
    | .anchorBlockRejected => (.error .anchorBlock, s1)
    | .waitFailed => (.error .wait, s1)
    | .committed receiptHash =>
      (.ok (some { blockNumber := block.blockNumber, txHash := receiptHash }), s1)

/-- The method `anchorPendingBlocks()`: the `try` block, with `catch (error)` logging the
error and falling through to the end of the function. -/
def anchorPendingBlocks {M R : Type} (E : Ethers D B P) (uri : D → M)
    (parsed : Option Int) (now : Nat) (outcome : CommitOutcome R) (s : AnchorState D P M) :
    Except AnchorError (Option (AnchorResult R)) × AnchorState D P M :=
  match anchorPendingBlocks_try E uri parsed now outcome s with
  | (.ok value, s1) => (.ok value, s1)
  | (.error _, s1) => (.ok none, s1)

/-- A service with three pending payloads and no block yet. -/
def pendingCalls : List (Call Nat) :=
  [.addTransaction 1 10, .addTransaction 2 11, .addTransaction 3 12]

/-- An anchoring state over a service with three pending payloads, before any commit. -/
def pendingAnchorState : AnchorState Nat Nat Nat :=
  { chainService := run toyEthers pendingCalls, anchorCalls := [] }

/-- The state after one cycle from `pendingAnchorState` in which `tx.wait()` fails. -/
def afterFailedCycle : AnchorState Nat Nat Nat :=
  (anchorPendingBlocks toyEthers (fun hash => hash) none 20
    (CommitOutcome.waitFailed : CommitOutcome Nat) pendingAnchorState).2

/-- The object that `getStats()` returns. -/
structure Stats (D P : Type) where
  totalBlocks : Nat
  totalTransactions : Nat
  pendingTransactions : Nat
  latestBlock : Option (Block D P)

/-- The method `getStats()`; `none` stands for `null`, which
`this.chain[this.chain.length - 1] || null` gives for an empty chain. -/
def getStats (s : AHINChainService D P) : Stats D P :=
  { totalBlocks := s.chain.length
    totalTransactions := s.chain.foldl (fun sum b => sum + b.transactionCount) 0
    pendingTransactions := s.pendingTransactions.length
    latestBlock := s.chain[s.chain.length - 1]? }

/-- A call of one of the four methods of `AHINChainService`. -/
inductive Operation (D P : Type) where
  | addTransaction (txData : P) (now : Nat)
  | buildBlock (parsed : Option Int) (now : Nat)
  | generateMerkleProof (txId : D)
  | getStats

/-- The service after a call of one of its methods: `generateMerkleProof` and `getStats`
assign to no field. -/
def Operation.apply (E : Ethers D B P) (s : AHINChainService D P) :
    Operation D P → AHINChainService D P
  | .addTransaction txData now => (AHIN.addTransaction E txData now s).2
  | .buildBlock parsed now => (AHIN.buildBlock E parsed now s).2
  | .generateMerkleProof _ => s
  | .getStats => s

/-- The ids that the `addTransaction` calls return, in call order, when a sequence of
calls is made on the service `s`. -/
def returnedIds (E : Ethers D B P) : AHINChainService D P → List (Call P) → List D
  | _, [] => []
  | s, .addTransaction txData now :: calls =>
    (addTransaction E txData now s).1 :: returnedIds E (addTransaction E txData now s).2 calls
  | s, .buildBlock parsed now :: calls => returnedIds E (buildBlock E parsed now s).2 calls

/-- A queue holding payload 1 twice, committed in one block with payload 2 between. -/
def repeatedCalls : List (Call Nat) :=
  [.addTransaction 2 10, .addTransaction 1 11, .addTransaction 1 12, .buildBlock none 20]


/-- The ids of all transactions stored in the blocks of a chain, in chain order. -/
def storedIds (chain : List (Block D P)) : List D :=
  chain.flatMap (fun b => b.transactions.map (fun tx => tx.id))

/-- A call made with a positive effective batch size: every `addTransaction`, and a
`buildBlock` for which `parseInt(process.env.AHIN_BATCH_SIZE) || 100` is at least 1. -/
def Call.PositiveBatch : Call P → Prop
  | .addTransaction _ _ => True
  | .buildBlock parsed _ => 1 ≤ batchSize parsed

/-- The part of `anchorPendingBlocks` that runs before its first `await`: `buildBlock`,
and for a built block the call of `this.anchor.anchorBlock`. Returns the block whose
commit the call then awaits, `none` when it returned already. -/
def anchorPendingBlocks_begin {M : Type} (E : Ethers D B P) (uri : D → M)
    (parsed : Option Int) (now : Nat) (s : AnchorState D P M) :
    Option (Block D P) × AnchorState D P M :=
  match buildBlock E parsed now s.chainService with
  | (none, chainService) => (none, { s with chainService := chainService })
  | (some block, chainService) =>
    (some block,
      { chainService := chainService
        anchorCalls := s.anchorCalls ++
          [{ merkleRoot := block.merkleRoot, transactionCount := block.transactionCount,
             metadataURI := uri block.hash }] })

/-- The anchoring service between two events of the event loop: its state and the calls
of `anchorPendingBlocks` that are suspended at an `await`, each with the block whose
commit it awaits. -/
structure AnchorLoop (D P M : Type) where
  state : AnchorState D P M
  awaiting : List (Block D P)

/-- A trigger of a cycle, by the timer callback of `start()` or by `POST /api/ahin/anchor`:
both call `anchorPendingBlocks()`, which runs up to its first `await` and is suspended
there when it built a block. -/
def trigger {M : Type} (E : Ethers D B P) (uri : D → M) (parsed : Option Int) (now : Nat)
    (l : AnchorLoop D P M) : AnchorLoop D P M :=
  match anchorPendingBlocks_begin E uri parsed now l.state with
  | (none, state) => { state := state, awaiting := l.awaiting }
  | (some block, state) => { state := state, awaiting := l.awaiting ++ [block] }

/-- The event loop over `pendingAnchorState` after one trigger with batch size 2: one
cycle is suspended at its commit and one payload is still pending. -/
def oneCycleInFlight : AnchorLoop Nat Nat Nat :=
  trigger toyEthers (fun hash => hash) (some 2) 20
    { state := pendingAnchorState, awaiting := [] }

/-! ## The sorted-pair rule -/

theorem keccak_sorted_eq_combine (E : Ethers D B P) (left right : D) :
    E.keccak256 (if left < right then E.concat left right else E.concat right left)
      = combine E left right := by
  unfold combine
  by_cases h : left < right
  · rw [if_pos h, min_eq_left h.le, max_eq_right h.le]
  · rw [if_neg h, min_eq_right (not_lt.mp h), max_eq_left (not_lt.mp h)]

theorem combine_comm (E : Ethers D B P) (a b : D) : combine E a b = combine E b a := by
  unfold combine
  rw [min_comm, max_comm]

/-! ## The two `for` loops -/

theorem pairUp_length (E : Ethers D B P) : ∀ level : List D,
    (pairUp E level).length = (level.length + 1) / 2
  | [] => by simp [pairUp]
  | [a] => by simp [pairUp]
  | a :: b :: rest => by
    simp only [pairUp, List.length_cons, pairUp_length E rest]
    omega

theorem calculateMerkleRoot_for_step (E : Ethers D B P) (leaves : List D) (i : Nat)
    (newLevel : List D) (h : i < leaves.length) :
    calculateMerkleRoot_for E leaves i newLevel
      = calculateMerkleRoot_for E leaves (i + 2)
          (newLevel ++ [combine E leaves[i]
            (if h1 : i + 1 < leaves.length then leaves[i + 1] else leaves[i])]) := by
  rw [calculateMerkleRoot_for, dif_pos h]
  simp only [keccak_sorted_eq_combine]

theorem calculateMerkleRoot_for_done (E : Ethers D B P) (leaves : List D) (i : Nat)
    (newLevel : List D) (h : ¬ i < leaves.length) :
    calculateMerkleRoot_for E leaves i newLevel = newLevel := by
  rw [calculateMerkleRoot_for, dif_neg h]

theorem pairUp_drop (E : Ethers D B P) (leaves : List D) (i : Nat) (h : i < leaves.length) :
    pairUp E (leaves.drop i)
      = combine E leaves[i] (if h1 : i + 1 < leaves.length then leaves[i + 1] else leaves[i])
          :: pairUp E (leaves.drop (i + 2)) := by
  rw [List.drop_eq_getElem_cons h]
  by_cases h1 : i + 1 < leaves.length
  · rw [List.drop_eq_getElem_cons h1, dif_pos h1]
    simp only [pairUp]
  · have e1 : leaves.drop (i + 1) = [] := List.drop_eq_nil_of_le (by omega)
    have e2 : leaves.drop (i + 2) = [] := List.drop_eq_nil_of_le (by omega)
    rw [e1, e2, dif_neg h1]
    simp only [pairUp]

theorem calculateMerkleRoot_for_eq (E : Ethers D B P) (leaves : List D) (i : Nat)
    (newLevel : List D) :
    calculateMerkleRoot_for E leaves i newLevel = newLevel ++ pairUp E (leaves.drop i) := by
  generalize hn : leaves.length - i = n
  induction n using Nat.strong_induction_on generalizing i newLevel with
  | _ n ih =>
    by_cases h : i < leaves.length
    · rw [calculateMerkleRoot_for_step E leaves i newLevel h,
        ih (leaves.length - (i + 2)) (by omega) (i + 2) _ rfl, pairUp_drop E leaves i h,
        List.append_assoc]
      rfl
    · rw [calculateMerkleRoot_for_done E leaves i newLevel h,
        List.drop_eq_nil_of_le (by omega)]
      simp [pairUp]

theorem calculateMerkleRoot_for_zero (E : Ethers D B P) (leaves : List D) :
    calculateMerkleRoot_for E leaves 0 [] = pairUp E leaves := by
  rw [calculateMerkleRoot_for_eq]
  simp

theorem _generateProof_for_step (E : Ethers D B P) (currentLevel : List D)
    (currentIndex : Nat) (i : Nat) (proof newLevel : List D) (h : i < currentLevel.length) :
    _generateProof_for E currentLevel currentIndex i proof newLevel
      = _generateProof_for E currentLevel currentIndex (i + 2)
          (pushSibling currentLevel currentIndex i proof)
          (newLevel ++ [combine E currentLevel[i]
            (if h1 : i + 1 < currentLevel.length then currentLevel[i + 1]
             else currentLevel[i])]) := by
  rw [_generateProof_for, dif_pos h]
  simp only [keccak_sorted_eq_combine, pushSibling]

theorem _generateProof_for_done (E : Ethers D B P) (currentLevel : List D)
    (currentIndex : Nat) (i : Nat) (proof newLevel : List D) (h : ¬ i < currentLevel.length) :
    _generateProof_for E currentLevel currentIndex i proof newLevel = (proof, newLevel) := by
  rw [_generateProof_for, dif_neg h]

omit [LinearOrder D] in
theorem pushSibling_of_lt (currentLevel : List D) (currentIndex i : Nat) (proof : List D)
    (hlt : currentIndex < i) : pushSibling currentLevel currentIndex i proof = proof := by
  unfold pushSibling
  rw [if_neg (by omega)]

omit [LinearOrder D] in
theorem pushSibling_of_gt (currentLevel : List D) (currentIndex i : Nat) (proof : List D)
    (hgt : i + 1 < currentIndex) : pushSibling currentLevel currentIndex i proof = proof := by
  unfold pushSibling
  rw [if_neg (by omega)]

omit [LinearOrder D] in
theorem pushSibling_left (currentLevel : List D) (i : Nat) (proof : List D) :
    pushSibling currentLevel i i proof
      = if h2 : i + 1 < currentLevel.length then proof ++ [currentLevel[i + 1]] else proof := by
  unfold pushSibling
  simp

omit [LinearOrder D] in
theorem pushSibling_right (currentLevel : List D) (i : Nat) (proof : List D)
    (h : i < currentLevel.length) :
    pushSibling currentLevel (i + 1) i proof = proof ++ [currentLevel[i]] := by
  unfold pushSibling
  simp [h]

theorem _generateProof_for_fst_of_lt (E : Ethers D B P) (currentLevel : List D)
    (currentIndex : Nat) (i : Nat) (proof newLevel : List D) (hlt : currentIndex < i) :
    (_generateProof_for E currentLevel currentIndex i proof newLevel).1 = proof := by
  generalize hn : currentLevel.length - i = n
  induction n using Nat.strong_induction_on generalizing i proof newLevel with
  | _ n ih =>
    by_cases h : i < currentLevel.length
    · rw [_generateProof_for_step E _ _ _ _ _ h,
        ih (currentLevel.length - (i + 2)) (by omega) (i + 2) _ _ (by omega) rfl,
        pushSibling_of_lt _ _ _ _ hlt]
    · rw [_generateProof_for_done E _ _ _ _ _ h]

theorem _generateProof_for_fst (E : Ethers D B P) (currentLevel : List D)
    (currentIndex : Nat) (i : Nat) (proof newLevel : List D) (hle : i ≤ currentIndex) :
    (_generateProof_for E currentLevel currentIndex i proof newLevel).1
      = proof ++ siblingOf (currentLevel.drop i) (currentIndex - i) := by
  generalize hn : currentLevel.length - i = n
  induction n using Nat.strong_induction_on generalizing i proof newLevel with
  | _ n ih =>
    by_cases h : i < currentLevel.length
    · rw [_generateProof_for_step E _ _ _ _ _ h, List.drop_eq_getElem_cons h]
      rcases Nat.lt_or_ge (i + 1) currentIndex with hgt | hge
      · rw [ih (currentLevel.length - (i + 2)) (by omega) (i + 2) _ _ (by omega) rfl,
          pushSibling_of_gt _ _ _ _ hgt]
        have hk2 : currentIndex - i - 2 = currentIndex - (i + 2) := by omega
        by_cases h1 : i + 1 < currentLevel.length
        · rw [List.drop_eq_getElem_cons h1]
          simp only [siblingOf]
          rw [if_neg (by omega), if_neg (by omega), hk2]
        · rw [List.drop_eq_nil_of_le (show currentLevel.length ≤ i + 1 by omega),
            List.drop_eq_nil_of_le (show currentLevel.length ≤ i + 2 by omega)]
          simp only [siblingOf]
          rw [if_neg (by omega)]
      · rw [_generateProof_for_fst_of_lt E _ _ _ _ _ (by omega)]
        rcases Nat.eq_or_lt_of_le hle with ha | hlt
        · subst ha
          rw [pushSibling_left, Nat.sub_self]
          by_cases h1 : i + 1 < currentLevel.length
          · rw [List.drop_eq_getElem_cons h1, dif_pos h1]
            simp only [siblingOf, if_true]
          · rw [List.drop_eq_nil_of_le (show currentLevel.length ≤ i + 1 by omega), dif_neg h1]
            simp [siblingOf]
        · have hb : currentIndex = i + 1 := by omega
          subst hb
          rw [pushSibling_right _ _ _ h]
          have hk : i + 1 - i = 1 := by omega
          rw [hk]
          by_cases h1 : i + 1 < currentLevel.length
          · rw [List.drop_eq_getElem_cons h1]
            simp [siblingOf]
          · rw [List.drop_eq_nil_of_le (show currentLevel.length ≤ i + 1 by omega)]
            simp [siblingOf]
    · rw [_generateProof_for_done E _ _ _ _ _ h,
        List.drop_eq_nil_of_le (show currentLevel.length ≤ i by omega)]
      simp [siblingOf]

/-! ## The recursion of `calculateMerkleRoot` and the `while` loop of `_generateProof` -/

theorem calculateMerkleRoot_nil (E : Ethers D B P) :
    calculateMerkleRoot E ([] : List D) = E.ZeroHash := by
  rw [calculateMerkleRoot]
  simp

theorem calculateMerkleRoot_singleton (E : Ethers D B P) (x : D) :
    calculateMerkleRoot E [x] = x := by
  rw [calculateMerkleRoot]
  simp

theorem calculateMerkleRoot_of_two_le (E : Ethers D B P) (leaves : List D)
    (h : 2 ≤ leaves.length) :
    calculateMerkleRoot E leaves = calculateMerkleRoot E (pairUp E leaves) := by
  rw [calculateMerkleRoot, if_neg (by omega), dif_neg (by omega), calculateMerkleRoot_for_zero]

theorem _generateProof_body_eq (E : Ethers D B P) (s : ProofState D) :
    _generateProof_body E s
      = { proof := s.proof ++ siblingOf s.currentLevel s.currentIndex
          currentLevel := pairUp E s.currentLevel
          currentIndex := s.currentIndex / 2 } := by
  unfold _generateProof_body
  simp only [_generateProof_for_snd, calculateMerkleRoot_for_zero]
  rw [_generateProof_for_fst E _ _ _ _ _ (Nat.zero_le _)]
  simp

theorem _generateProof_while_step (E : Ethers D B P) (s : ProofState D)
    (h : 1 < s.currentLevel.length) :
    _generateProof_while E s = _generateProof_while E (_generateProof_body E s) := by
  rw [_generateProof_while, if_pos h]

theorem _generateProof_while_done (E : Ethers D B P) (s : ProofState D)
    (h : ¬ 1 < s.currentLevel.length) : _generateProof_while E s = s := by
  rw [_generateProof_while, if_neg h]

theorem _generateProof_while_proof (E : Ethers D B P) (proof level : List D) (index : Nat) :
    (_generateProof_while E { proof := proof, currentLevel := level, currentIndex := index }).proof
      = proof ++ _generateProof E level index := by
  generalize hn : level.length = n
  induction n using Nat.strong_induction_on generalizing proof level index with
  | _ n ih =>
    unfold _generateProof
    by_cases h : 1 < level.length
    · rw [_generateProof_while_step E
          { proof := proof, currentLevel := level, currentIndex := index } h,
        _generateProof_while_step E
          { proof := [], currentLevel := level, currentIndex := index } h,
        _generateProof_body_eq, _generateProof_body_eq]
      have hlen : (pairUp E level).length < n := by
        rw [pairUp_length]
        omega
      rw [ih _ hlen _ _ _ rfl, ih _ hlen ([] ++ siblingOf level index) _ _ rfl]
      simp
    · rw [_generateProof_while_done E
          { proof := proof, currentLevel := level, currentIndex := index } h,
        _generateProof_while_done E
          { proof := [], currentLevel := level, currentIndex := index } h]
      simp

theorem _generateProof_of_two_le (E : Ethers D B P) (leaves : List D) (index : Nat)
    (h : 2 ≤ leaves.length) :
    _generateProof E leaves index
      = siblingOf leaves index ++ _generateProof E (pairUp E leaves) (index / 2) := by
  conv_lhs => unfold _generateProof
  rw [_generateProof_while_step E _ (by simpa using h), _generateProof_body_eq,
    _generateProof_while_proof]
  simp

theorem _generateProof_of_le_one (E : Ethers D B P) (leaves : List D) (index : Nat)
    (h : leaves.length ≤ 1) : _generateProof E leaves index = [] := by
  unfold _generateProof
  rw [_generateProof_while_done E _ (by simpa using h)]

/-! ## The reduction in the words of the spec -/

theorem pairUp_getElem (E : Ethers D B P) :
    ∀ (level : List D) (j m : Nat) (_ : m = 2 * j) (h : m < level.length)
      (hj : j < (pairUp E level).length),
      (pairUp E level)[j]
        = combine E level[m] (if h1 : m + 1 < level.length then level[m + 1] else level[m])
  | [], _, _, _, h, _ => absurd h (by simp)
  | [a], j, m, hm, h, _ => by
    have hm0 : m = 0 := by
      simp only [List.length_singleton] at h
      omega
    have hj0 : j = 0 := by omega
    subst hm0
    subst hj0
    simp [pairUp]
  | a :: b :: rest, 0, m, hm, _, _ => by
    have hm0 : m = 0 := by omega
    subst hm0
    simp [pairUp]
  | a :: b :: rest, j + 1, m, hm, h, hj => by
    obtain ⟨m1, rfl⟩ : ∃ m1, m = m1 + 2 := ⟨m - 2, by omega⟩
    have h2 : m1 < rest.length := by
      simp only [List.length_cons] at h
      omega
    have hj2 : j < (pairUp E rest).length := by
      simp only [pairUp, List.length_cons] at hj
      omega
    have ih := pairUp_getElem E rest j m1 (by omega) h2 hj2
    simp only [pairUp, List.getElem_cons_succ, List.length_cons]
    rw [ih]
    by_cases h1 : m1 + 1 < rest.length
    · rw [dif_pos h1, dif_pos (by omega)]
    · rw [dif_neg h1, dif_neg (by omega)]

theorem reduceLevel_eq_pairUp (E : Ethers D B P) (level : List D) :
    reduceLevel E level = pairUp E level := by
  apply List.ext_getElem
  · rw [reduceLevel_length, pairUp_length]
  · intro j h1 h2
    have hj : j < (level.length + 1) / 2 := by
      rw [pairUp_length] at h2
      exact h2
    rw [pairUp_getElem E level j (2 * j) rfl (by omega) h2]
    simp only [reduceLevel, List.getElem_ofFn]
    split <;> rfl

theorem reduceUntilOne_of_two_le (E : Ethers D B P) (level : List D) (h : 2 ≤ level.length) :
    reduceUntilOne E level = reduceUntilOne E (pairUp E level) := by
  rw [reduceUntilOne, if_pos h, reduceLevel_eq_pairUp]

theorem reduceUntilOne_of_lt_two (E : Ethers D B P) (level : List D) (h : ¬ 2 ≤ level.length) :
    reduceUntilOne E level = level := by
  rw [reduceUntilOne, if_neg h]

theorem reduceUntilOne_eq_root (E : Ethers D B P) (level : List D) (h : 1 ≤ level.length) :
    reduceUntilOne E level = [calculateMerkleRoot E level] := by
  generalize hn : level.length = n
  induction n using Nat.strong_induction_on generalizing level with
  | _ n ih =>
    by_cases h2 : 2 ≤ level.length
    · have hlen : (pairUp E level).length < n := by
        rw [pairUp_length]
        omega
      have hpos : 1 ≤ (pairUp E level).length := by
        rw [pairUp_length]
        omega
      rw [reduceUntilOne_of_two_le E level h2, calculateMerkleRoot_of_two_le E level h2,
        ih _ hlen _ hpos rfl]
    · rw [reduceUntilOne_of_lt_two E level h2]
      match level, h, h2 with
      | [x], _, _ => rw [calculateMerkleRoot_singleton]
      | _ :: _ :: _, _, h2 => exact absurd (by simp) h2

theorem _generateProof_while_eq_reduceUntilOne (E : Ethers D B P) (s : ProofState D) :
    (_generateProof_while E s).currentLevel = reduceUntilOne E s.currentLevel := by
  obtain ⟨proof, level, index⟩ := s
  generalize hn : level.length = n
  induction n using Nat.strong_induction_on generalizing proof level index with
  | _ n ih =>
    by_cases h : 2 ≤ level.length
    · have hlen : (pairUp E level).length < n := by
        rw [pairUp_length]
        omega
      rw [_generateProof_while_step E _ (by simpa using h), _generateProof_body_eq,
        reduceUntilOne_of_two_le E level h, ih _ hlen _ _ _ rfl]
    · rw [_generateProof_while_done E _ (show ¬ 1 < level.length by omega),
        reduceUntilOne_of_lt_two E level h]

/-! ## The service -/

theorem Reachable.new (E : Ethers D B P) :
    Reachable E (AHINChainService.new : AHINChainService D P) :=
  ⟨[], rfl⟩

theorem Reachable.step (E : Ethers D B P) {s : AHINChainService D P} (h : Reachable E s)
    (c : Call P) : Reachable E (Call.apply E s c) := by
  obtain ⟨calls, rfl⟩ := h
  exact ⟨calls ++ [c], by simp [run]⟩

theorem Reachable.induct (E : Ethers D B P) {motive : AHINChainService D P → Prop}
    (hnew : motive AHINChainService.new)
    (hstep : ∀ s c, Reachable E s → motive s → motive (Call.apply E s c)) :
    ∀ s, Reachable E s → motive s := by
  rintro s ⟨calls, rfl⟩
  induction calls using List.reverseRecOn with
  | nil => exact hnew
  | append_singleton calls c ih =>
    rw [run, List.foldl_append]
    exact hstep _ c ⟨calls, rfl⟩ ih

omit [LinearOrder D] in
theorem lastHash_eq (zero : D) (chain : List (Block D P)) :
    lastHash zero chain
      = if h : chain.length > 0 then chain[chain.length - 1].hash else zero := by
  unfold lastHash
  rw [List.getLast?_eq_getElem?]
  by_cases h : chain.length > 0
  · rw [dif_pos h, List.getElem?_eq_getElem (by omega)]
  · rw [dif_neg h, List.getElem?_eq_none (by omega)]

omit [LinearOrder D] in
theorem addTransaction_chain (E : Ethers D B P) (txData : P) (now : Nat)
    (s : AHINChainService D P) : (addTransaction E txData now s).2.chain = s.chain :=
  rfl

theorem buildBlock_of_empty (E : Ethers D B P) (parsed : Option Int) (now : Nat)
    (s : AHINChainService D P) (h : s.pendingTransactions.length = 0) :
    buildBlock E parsed now s = (none, s) := by
  rw [buildBlock, if_pos h]

theorem buildBlock_of_nonempty (E : Ethers D B P) (parsed : Option Int) (now : Nat)
    (s : AHINChainService D P) (h : ¬ s.pendingTransactions.length = 0) :
    ∃ b : Block D P,
      buildBlock E parsed now s
        = (some b, { chain := s.chain ++ [b]
                     pendingTransactions := s.pendingTransactions.drop (batchSize parsed).toNat })
      ∧ b.prevHash = lastHash E.ZeroHash s.chain ∧ b.timestamp = now
      ∧ b.blockNumber = s.chain.length + 1
      ∧ b.transactions = (s.pendingTransactions.take (batchSize parsed).toNat).map
          (fun tx => { id := tx.id, data := tx.data })
      ∧ BlockBuilt E b := by
  rw [buildBlock, if_neg h]
  refine ⟨_, rfl, ?_, rfl, rfl, rfl, ?_, rfl, ?_⟩
  · exact (lastHash_eq E.ZeroHash s.chain).symm
  · simp [Function.comp_def]
  · simp

theorem buildBlock_chain (E : Ethers D B P) (parsed : Option Int) (now : Nat)
    (s : AHINChainService D P) :
    (buildBlock E parsed now s).2.chain = s.chain ∨
      ∃ b : Block D P, (buildBlock E parsed now s).2.chain = s.chain ++ [b]
        ∧ b.prevHash = lastHash E.ZeroHash s.chain ∧ BlockBuilt E b := by
  by_cases h : s.pendingTransactions.length = 0
  · left
    rw [buildBlock_of_empty E parsed now s h]
  · right
    obtain ⟨b, hb, hprev, -, -, -, hbuilt⟩ := buildBlock_of_nonempty E parsed now s h
    exact ⟨b, by rw [hb], hprev, hbuilt⟩

omit [LinearOrder D] in
theorem lastHash_cons (zero : D) (b : Block D P) (rest : List (Block D P)) :
    lastHash zero (b :: rest) = lastHash b.hash rest := by
  cases rest with
  | nil => simp [lastHash]
  | cons c r =>
    unfold lastHash
    rw [List.getLast?_cons_cons, List.getLast?_eq_getLast _ (List.cons_ne_nil c r)]

omit [LinearOrder D] in
theorem linkedFrom_append_singleton (h0 : D) (chain : List (Block D P)) (b : Block D P) :
    LinkedFrom h0 (chain ++ [b]) ↔ LinkedFrom h0 chain ∧ b.prevHash = lastHash h0 chain := by
  induction chain generalizing h0 with
  | nil => simp [LinkedFrom, lastHash]
  | cons c rest ih =>
    show (c.prevHash = h0 ∧ LinkedFrom c.hash (rest ++ [b])) ↔ _
    rw [ih, lastHash_cons]
    show _ ↔ (c.prevHash = h0 ∧ LinkedFrom c.hash rest) ∧ _
    rw [and_assoc]

omit [LinearOrder D] in
theorem linkedFrom_getElem (h0 : D) (chain : List (Block D P)) (hl : LinkedFrom h0 chain) :
    (∀ h : 0 < chain.length, chain[0].prevHash = h0) ∧
      ∀ (n : Nat) (h : n + 1 < chain.length), chain[n + 1].prevHash = chain[n].hash := by
  induction chain generalizing h0 with
  | nil =>
    constructor
    · intro h
      exact absurd h (by simp)
    · intro n h
      exact absurd h (by simp)
  | cons c rest ih =>
    obtain ⟨hc, hrest⟩ := hl
    obtain ⟨ih0, ihn⟩ := ih c.hash hrest
    constructor
    · intro _
      exact hc
    · intro n h
      cases n with
      | zero => exact ih0 (by simpa using h)
      | succ m => exact ihn m (by simpa using h)

theorem reachable_linkedFrom (E : Ethers D B P) (s : AHINChainService D P)
    (hs : Reachable E s) : LinkedFrom E.ZeroHash s.chain := by
  refine Reachable.induct E (motive := fun s => LinkedFrom E.ZeroHash s.chain) ?_ ?_ s hs
  · exact True.intro
  · intro s c _ ih
    cases c with
    | addTransaction txData now => exact ih
    | buildBlock parsed now =>
      show LinkedFrom E.ZeroHash (buildBlock E parsed now s).2.chain
      rcases buildBlock_chain E parsed now s with h | ⟨b, h, hprev, -⟩
      · rw [h]
        exact ih
      · rw [h, linkedFrom_append_singleton]
        exact ⟨ih, hprev⟩

theorem reachable_blockBuilt (E : Ethers D B P) (s : AHINChainService D P)
    (hs : Reachable E s) : ∀ b ∈ s.chain, BlockBuilt E b := by
  refine Reachable.induct E (motive := fun s => ∀ b ∈ s.chain, BlockBuilt E b) ?_ ?_ s hs
  · intro b hb
    exact absurd hb (by simp [AHINChainService.new])
  · intro s c _ ih
    cases c with
    | addTransaction txData now => exact ih
    | buildBlock parsed now =>
      show ∀ b ∈ (buildBlock E parsed now s).2.chain, BlockBuilt E b
      rcases buildBlock_chain E parsed now s with h | ⟨b, h, -, hbuilt⟩
      · rw [h]
        exact ih
      · rw [h]
        intro b1 hb1
        rcases List.mem_append.mp hb1 with hm | hm
        · exact ih b1 hm
        · rw [List.mem_singleton.mp hm]
          exact hbuilt

/-! ## Small trees -/

theorem calculateMerkleRoot_pair (E : Ethers D B P) (a b : D) :
    calculateMerkleRoot E [a, b] = combine E a b := by
  rw [calculateMerkleRoot_of_two_le E _ (by simp)]
  simp only [pairUp]
  rw [calculateMerkleRoot_singleton]

theorem calculateMerkleRoot_triple (E : Ethers D B P) (a b c : D) :
    calculateMerkleRoot E [a, b, c] = combine E (combine E a b) (combine E c c) := by
  rw [calculateMerkleRoot_of_two_le E _ (by simp)]
  simp only [pairUp]
  rw [calculateMerkleRoot_pair]

theorem _generateProof_pair (E : Ethers D B P) (a b : D) (index : Nat) :
    _generateProof E [a, b] index = siblingOf [a, b] index := by
  rw [_generateProof_of_two_le E _ _ (by simp)]
  simp only [pairUp]
  rw [_generateProof_of_le_one E _ _ (by simp)]
  simp

theorem _generateProof_triple (E : Ethers D B P) (a b c : D) (index : Nat) :
    _generateProof E [a, b, c] index
      = siblingOf [a, b, c] index ++ siblingOf [combine E a b, combine E c c] (index / 2) := by
  rw [_generateProof_of_two_le E _ _ (by simp)]
  simp only [pairUp]
  rw [_generateProof_pair]

theorem generateMerkleProof_of_first (E : Ethers D B P) (s : AHINChainService D P)
    (pre post : List (Block D P)) (b : Block D P) (txId : D)
    (hchain : s.chain = pre ++ b :: post)
    (hpre : ∀ b1 ∈ pre, ∀ tx ∈ b1.transactions, tx.id ≠ txId)
    (hmem : ∃ tx ∈ b.transactions, tx.id = txId) :
    generateMerkleProof E s txId
      = some (_generateProof E (b.transactions.map (fun tx => tx.id))
          ((b.transactions.map (fun tx => tx.id)).findIdx (fun id => decide (id = txId)))) := by
  have hnone : pre.find? (fun b => b.transactions.any (fun tx => decide (tx.id = txId)))
      = none := by
    rw [List.find?_eq_none]
    intro b1 hb1 hany
    rw [List.any_eq_true] at hany
    obtain ⟨tx, htx, hid⟩ := hany
    exact hpre b1 hb1 tx htx (of_decide_eq_true hid)
  have hany : b.transactions.any (fun tx => decide (tx.id = txId)) = true := by
    rw [List.any_eq_true]
    obtain ⟨tx, htx, hid⟩ := hmem
    exact ⟨tx, htx, decide_eq_true hid⟩
  unfold generateMerkleProof
  rw [hchain, List.find?_append, hnone, Option.none_or, List.find?_cons]
  simp only [hany]

theorem _generateProof_body_iterate_level (E : Ethers D B P) (k : Nat) (s : ProofState D) :
    ((_generateProof_body E)^[k] s).currentLevel = (reduceLevel E)^[k] s.currentLevel := by
  induction k generalizing s with
  | zero => rfl
  | succ k ih =>
    rw [Function.iterate_succ_apply, Function.iterate_succ_apply, ih, _generateProof_body_eq,
      reduceLevel_eq_pairUp]

theorem combine_eq_combine_iff (E : Ethers D B P)
    (hinj : ∀ x y u v : D, E.keccak256 (E.concat x y) = E.keccak256 (E.concat u v) →
      x = u ∧ y = v)
    (c n1 n2 : D) (h : combine E c n1 = combine E n1 n2) : c = n2 := by
  obtain ⟨hmin, hmax⟩ := hinj _ _ _ _ h
  rcases le_total c n1 with h1 | h1 <;> rcases le_total n1 n2 with h2 | h2
  · rw [min_eq_left h1, min_eq_left h2] at hmin
    rw [max_eq_right h1, max_eq_right h2] at hmax
    rw [hmin, hmax]
  · rw [min_eq_left h1, min_eq_right h2] at hmin
    exact hmin
  · rw [max_eq_left h1, max_eq_right h2] at hmax
    exact hmax
  · rw [min_eq_right h1, min_eq_right h2] at hmin
    rw [max_eq_left h1, max_eq_left h2] at hmax
    rw [hmax, hmin]

/-- With any collision-free hash, the proof generated for the third of three leaves does
not verify against the root, unless that leaf is a fixed point of the hash. -/
theorem verify_third_of_three_fails (E : Ethers D B P)
    (hinj : ∀ x y u v : D, E.keccak256 (E.concat x y) = E.keccak256 (E.concat u v) →
      x = u ∧ y = v)
    (a b c : D) (hc : c ≠ combine E c c) :
    verify E c (_generateProof E [a, b, c] 2) (calculateMerkleRoot E [a, b, c]) = false := by
  rw [_generateProof_triple, calculateMerkleRoot_triple]
  simp only [siblingOf, verify]
  simp only [OfNat.ofNat_ne_zero, OfNat.ofNat_ne_one, if_false, List.nil_append,
    Nat.reduceDiv, if_true, List.foldl_cons, List.foldl_nil, decide_eq_false_iff_not]
  intro h
  exact hc (combine_eq_combine_iff E hinj c _ _ h)

/-! ## The Merkle tree and its proofs of inclusion -/

/-- C1: the round trip fails for a self-paired leaf. In the run `sampleCalls` the first
block holds the ids `[101, 102, 103]`; the proof that the service returns for `103`, the
third of them, is `_generateProof` at index 2, holds one digest only, and does not verify
against the block's `merkleRoot`. -/
theorem roundtrip_fails_for_self_paired_leaf :
    (run toyEthers sampleCalls).chain.map
        (fun b => (b.transactions.map (fun tx => tx.id), b.merkleRoot))
      = [([101, 102, 103], calculateMerkleRoot toyEthers [101, 102, 103]),
         ([104, 105], calculateMerkleRoot toyEthers [104, 105])] ∧
      generateMerkleProof toyEthers (run toyEthers sampleCalls) 103
        = some (_generateProof toyEthers [101, 102, 103] 2) ∧
      _generateProof toyEthers [101, 102, 103] 2 = [combine toyEthers 101 102] ∧
      verify toyEthers 103 (_generateProof toyEthers [101, 102, 103] 2)
        (calculateMerkleRoot toyEthers [101, 102, 103]) = false := by
  refine ⟨rfl, rfl, ?_, ?_⟩
  · rw [_generateProof_triple]
    decide
  · rw [_generateProof_triple, calculateMerkleRoot_triple]
    decide

/-- C2: no sibling is recorded for a self-paired node. For leaves `[a, b, c]` and index 2
the proof is `[combine a b]`: the leaf level, where `c` is paired with itself, adds
nothing, so the proof is not `[c, combine a b]`. -/
theorem _generateProof_skips_self_paired (E : Ethers D B P) (a b c : D) :
    _generateProof E [a, b, c] 2 = [combine E a b] ∧
      _generateProof E [a, b, c] 2 ≠ [c, combine E a b] := by
  have h : _generateProof E [a, b, c] 2 = [combine E a b] := by
    rw [_generateProof_triple]
    simp [siblingOf]
  refine ⟨h, ?_⟩
  rw [h]
  intro hne
  exact absurd (congrArg List.length hne) (by simp)

/-- C3: odd-count duplication. For all digests `a`, `b`, `c` the root of `[a, b, c]` is
`combine (combine a b) (combine c c)`, where `combine x y = keccak(min(x,y) ‖ max(x,y))`. -/
theorem calculateMerkleRoot_odd_count_duplication (E : Ethers D B P) (a b c : D) :
    calculateMerkleRoot E [a, b, c] = combine E (combine E a b) (combine E c c) :=
  calculateMerkleRoot_triple E a b c

/-- C4 as stated fails when an earlier block holds the same id. In the run
`duplicateCalls` the second block holds the ids `[102, 101, 103]`, yet the proof returned
for `101` is the empty proof of the first block, not `[102, combine 103 103]`. -/
theorem three_leaf_scenario_counterexample :
    (run toyEthers duplicateCalls).chain.map (fun b => b.transactions.map (fun tx => tx.id))
      = [[101], [102, 101, 103]] ∧
      generateMerkleProof toyEthers (run toyEthers duplicateCalls) 101 = some [] ∧
      generateMerkleProof toyEthers (run toyEthers duplicateCalls) 101
        ≠ some [102, combine toyEthers 103 103] := by
  have h : generateMerkleProof toyEthers (run toyEthers duplicateCalls) 101 = some [] := by
    show some (_generateProof toyEthers [101] 0) = some []
    rw [_generateProof_of_le_one toyEthers _ _ (by decide)]
  refine ⟨rfl, h, ?_⟩
  rw [h]
  decide

/-- C4, amended: three-leaf scenario. For a block of a reachable chain with transaction
ids `[hA, hB, hC]`, when no earlier block of the chain holds the id `hB`,
`generateMerkleProof(hB)` returns exactly `[hA, n2]` with `n2 = combine hC hC`, and
`combine (combine hB hA) n2` is the block's `merkleRoot`, which is
`combine (combine hA hB) n2`. -/
theorem generateMerkleProof_three_leaves (E : Ethers D B P) (s : AHINChainService D P)
    (pre post : List (Block D P)) (b : Block D P) (hA hB hC : D)
    (hs : Reachable E s) (hchain : s.chain = pre ++ b :: post)
    (hids : b.transactions.map (fun tx => tx.id) = [hA, hB, hC])
    (hfirst : ∀ b1 ∈ pre, ∀ tx ∈ b1.transactions, tx.id ≠ hB) :
    generateMerkleProof E s hB = some [hA, combine E hC hC] ∧
      combine E (combine E hB hA) (combine E hC hC) = b.merkleRoot ∧
      b.merkleRoot = combine E (combine E hA hB) (combine E hC hC) := by
  have hroot : b.merkleRoot = combine E (combine E hA hB) (combine E hC hC) := by
    have hb : b ∈ s.chain := by
      rw [hchain]
      simp
    rw [(reachable_blockBuilt E s hs b hb).1, hids, calculateMerkleRoot_triple]
  have hmem : ∃ tx ∈ b.transactions, tx.id = hB := by
    have : hB ∈ b.transactions.map (fun tx => tx.id) := by
      rw [hids]
      simp
    obtain ⟨tx, htx, hid⟩ := List.mem_map.mp this
    exact ⟨tx, htx, hid⟩
  refine ⟨?_, ?_, hroot⟩
  · rw [generateMerkleProof_of_first E s pre post b hB hchain hfirst hmem, hids,
      _generateProof_triple]
    by_cases hAB : hA = hB
    · subst hAB
      simp [List.findIdx_cons, siblingOf]
    · simp [List.findIdx_cons, siblingOf, hAB]
  · rw [hroot, combine_comm E hB hA]

/-- Witness for the amended C4: the first block of the run `sampleCalls`. -/
theorem generateMerkleProof_three_leaves_witness :
    Reachable toyEthers (run toyEthers sampleCalls) ∧
      generateMerkleProof toyEthers (run toyEthers sampleCalls) 102
        = some [101, combine toyEthers 103 103] :=
  ⟨⟨sampleCalls, rfl⟩,
    (generateMerkleProof_three_leaves toyEthers (run toyEthers sampleCalls) []
      ((run toyEthers sampleCalls).chain.drop 1)
      ((run toyEthers sampleCalls).chain.get ⟨0, by decide⟩) 101 102 103
      ⟨sampleCalls, rfl⟩ rfl rfl (fun _ h => absurd h (List.not_mem_nil _))).1⟩

/-- C5: two-leaf tree. The root of `[tx1, tx2]` is `keccak(tx1 ‖ tx2)` if `tx1 < tx2` and
`keccak(tx2 ‖ tx1)` otherwise; the proof of index 0 is `[tx2]` and that of index 1 is
`[tx1]`; combining a leaf with its one-element proof under the sorted-pair rule gives
the root. -/
theorem two_leaf_tree (E : Ethers D B P) (tx1 tx2 : D) :
    calculateMerkleRoot E [tx1, tx2]
        = (if tx1 < tx2 then E.keccak256 (E.concat tx1 tx2)
           else E.keccak256 (E.concat tx2 tx1)) ∧
      _generateProof E [tx1, tx2] 0 = [tx2] ∧
      _generateProof E [tx1, tx2] 1 = [tx1] ∧
      (_generateProof E [tx1, tx2] 0).foldl (combine E) tx1 = calculateMerkleRoot E [tx1, tx2] ∧
      (_generateProof E [tx1, tx2] 1).foldl (combine E) tx2
        = calculateMerkleRoot E [tx1, tx2] := by
  have h0 : _generateProof E [tx1, tx2] 0 = [tx2] := by
    rw [_generateProof_pair]
    simp [siblingOf]
  have h1 : _generateProof E [tx1, tx2] 1 = [tx1] := by
    rw [_generateProof_pair]
    simp [siblingOf]
  refine ⟨?_, h0, h1, ?_, ?_⟩
  · rw [calculateMerkleRoot_pair, ← keccak_sorted_eq_combine]
    split <;> rfl
  · rw [h0, calculateMerkleRoot_pair]
    rfl
  · rw [h1, calculateMerkleRoot_pair, combine_comm E tx1 tx2]
    rfl

/-- C6: single-leaf identity. For every digest `x` the root of `[x]` is `x` itself, so
every block of a reachable chain that holds exactly one transaction has that
transaction's id as its `merkleRoot`. -/
theorem single_leaf_identity (E : Ethers D B P) :
    (∀ x : D, calculateMerkleRoot E [x] = x) ∧
      ∀ s : AHINChainService D P, Reachable E s → ∀ b ∈ s.chain,
        ∀ t : BlockTransaction D P, b.transactions = [t] → b.merkleRoot = t.id := by
  refine ⟨calculateMerkleRoot_singleton E, ?_⟩
  intro s hs b hb t ht
  rw [(reachable_blockBuilt E s hs b hb).1, ht]
  exact calculateMerkleRoot_singleton E t.id

/-- Witness for C6: a block that commits a single payload. -/
theorem single_leaf_identity_witness :
    Reachable toyEthers (run toyEthers singleCalls) ∧
      (run toyEthers singleCalls).chain.map (fun b => b.transactions.map (fun tx => tx.id))
        = [[107]] ∧
      ∀ b ∈ (run toyEthers singleCalls).chain,
        ∀ t : BlockTransaction Nat Nat, b.transactions = [t] → b.merkleRoot = t.id :=
  ⟨⟨singleCalls, rfl⟩, rfl, (single_leaf_identity toyEthers).2 _ ⟨singleCalls, rfl⟩⟩

/-- C7: refinement. For a leaf list of length at least 2 the iterative reduction of the
spec ends with the single digest that the recursive `calculateMerkleRoot` returns; each
pass of the `for` loop produces the spec's next level; and the levels that the loop of
`_generateProof` goes through are the same sequence, ending in that digest. -/
theorem calculateMerkleRoot_refines_iterative (E : Ethers D B P) (leaves : List D)
    (h : 2 ≤ leaves.length) :
    reduceUntilOne E leaves = [calculateMerkleRoot E leaves] ∧
      (∀ level : List D, calculateMerkleRoot_for E level 0 [] = reduceLevel E level) ∧
      (∀ index k : Nat,
        ((_generateProof_body E)^[k]
            { proof := [], currentLevel := leaves, currentIndex := index }).currentLevel
          = (reduceLevel E)^[k] leaves) ∧
      ∀ index : Nat,
        (_generateProof_while E
            { proof := [], currentLevel := leaves, currentIndex := index }).currentLevel
          = [calculateMerkleRoot E leaves] := by
  have hroot := reduceUntilOne_eq_root E leaves (by omega)
  refine ⟨hroot, ?_, ?_, ?_⟩
  · intro level
    rw [calculateMerkleRoot_for_zero, reduceLevel_eq_pairUp]
  · intro index k
    exact _generateProof_body_iterate_level E k _
  · intro index
    rw [_generateProof_while_eq_reduceUntilOne, hroot]

/-- Witness for C7 on three leaves. -/
theorem calculateMerkleRoot_refines_iterative_witness :
    2 ≤ ([1, 2, 3] : List Nat).length ∧
      reduceUntilOne toyEthers [1, 2, 3] = [calculateMerkleRoot toyEthers [1, 2, 3]] :=
  ⟨by decide, (calculateMerkleRoot_refines_iterative toyEthers [1, 2, 3] (by decide)).1⟩

/-- C8: the pair combination is order-independent. The digest that either `for` loop
pushes for the pair `(a, b)` equals the one pushed for `(b, a)`, both being
`keccak(min(a,b) ‖ max(a,b))`; hence `[a, b]` and `[b, a]` have the same root. -/
theorem pair_combination_order_independent (E : Ethers D B P) (a b : D) :
    calculateMerkleRoot_for E [a, b] 0 [] = [E.keccak256 (E.concat (min a b) (max a b))] ∧
      calculateMerkleRoot_for E [b, a] 0 [] = [E.keccak256 (E.concat (min a b) (max a b))] ∧
      (∀ index : Nat,
        (_generateProof_for E [a, b] index 0 [] []).2
            = [E.keccak256 (E.concat (min a b) (max a b))] ∧
          (_generateProof_for E [b, a] index 0 [] []).2
            = [E.keccak256 (E.concat (min a b) (max a b))]) ∧
      calculateMerkleRoot E [a, b] = calculateMerkleRoot E [b, a] := by
  have hab : calculateMerkleRoot_for E [a, b] 0 []
      = [E.keccak256 (E.concat (min a b) (max a b))] := by
    rw [calculateMerkleRoot_for_zero]
    rfl
  have hba : calculateMerkleRoot_for E [b, a] 0 []
      = [E.keccak256 (E.concat (min a b) (max a b))] := by
    rw [calculateMerkleRoot_for_zero]
    simp only [pairUp]
    rw [combine_comm]
    rfl
  refine ⟨hab, hba, ?_, ?_⟩
  · intro index
    rw [_generateProof_for_snd, _generateProof_for_snd]
    exact ⟨hab, hba⟩
  · rw [calculateMerkleRoot_pair, calculateMerkleRoot_pair, combine_comm]

/-! ## The chain -/

/-- C9: chain linkage. In every state reachable from the empty service by
`addTransaction` and `buildBlock` calls, the first block's `prevHash` is the zero digest
and every later block's `prevHash` is the `hash` of the block before it. -/
theorem chain_linkage (E : Ethers D B P) (s : AHINChainService D P) (hs : Reachable E s) :
    (∀ h : 0 < s.chain.length, s.chain[0].prevHash = E.ZeroHash) ∧
      ∀ (n : Nat) (h : n + 1 < s.chain.length), s.chain[n + 1].prevHash = s.chain[n].hash :=
  linkedFrom_getElem E.ZeroHash s.chain (reachable_linkedFrom E s hs)

/-- Witness for C9 on a run that builds two blocks. -/
theorem chain_linkage_witness :
    Reachable toyEthers (run toyEthers sampleCalls) ∧
      (run toyEthers sampleCalls).chain.length = 2 ∧
      ((∀ h : 0 < (run toyEthers sampleCalls).chain.length,
          (run toyEthers sampleCalls).chain[0].prevHash = toyEthers.ZeroHash) ∧
        ∀ (n : Nat) (h : n + 1 < (run toyEthers sampleCalls).chain.length),
          (run toyEthers sampleCalls).chain[n + 1].prevHash
            = (run toyEthers sampleCalls).chain[n].hash) :=
  ⟨⟨sampleCalls, rfl⟩, rfl, chain_linkage toyEthers _ ⟨sampleCalls, rfl⟩⟩

/-- C10: every block's hash is the digest of the serialised triple
`merkleRoot ‖ prevHash ‖ timestamp` of that same block; so for two blocks built one after
the other, the later one's `prevHash` is that digest of the earlier one's fields. -/
theorem block_hash_of_fields (E : Ethers D B P) (s : AHINChainService D P)
    (hs : Reachable E s) :
    (∀ b ∈ s.chain, b.hash = E.keccak256 (E.headerBytes b.merkleRoot b.prevHash b.timestamp)) ∧
      ∀ (n : Nat) (h : n + 1 < s.chain.length),
        s.chain[n + 1].prevHash
          = E.keccak256 (E.headerBytes s.chain[n].merkleRoot s.chain[n].prevHash
              s.chain[n].timestamp) := by
  have hbuilt := reachable_blockBuilt E s hs
  refine ⟨fun b hb => (hbuilt b hb).2.1, ?_⟩
  intro n h
  rw [(linkedFrom_getElem E.ZeroHash s.chain (reachable_linkedFrom E s hs)).2 n h]
  exact (hbuilt _ (List.getElem_mem _)).2.1

/-- Witness for C10 on a run that builds two blocks. -/
theorem block_hash_of_fields_witness :
    Reachable toyEthers (run toyEthers sampleCalls) ∧
      ∀ b ∈ (run toyEthers sampleCalls).chain,
        b.hash = toyEthers.keccak256 (toyEthers.headerBytes b.merkleRoot b.prevHash b.timestamp) :=
  ⟨⟨sampleCalls, rfl⟩, (block_hash_of_fields toyEthers _ ⟨sampleCalls, rfl⟩).1⟩

/-! ## What one call of `buildBlock` does -/

theorem buildBlock_eq_some (E : Ethers D B P) (parsed : Option Int) (now : Nat)
    (s : AHINChainService D P) (b : Block D P) (h : (buildBlock E parsed now s).1 = some b) :
    ¬ s.pendingTransactions.length = 0 ∧
      (buildBlock E parsed now s).2
        = { chain := s.chain ++ [b]
            pendingTransactions := s.pendingTransactions.drop (batchSize parsed).toNat } ∧
      b.blockNumber = s.chain.length + 1 ∧
      b.transactions = (s.pendingTransactions.take (batchSize parsed).toNat).map
          (fun tx => { id := tx.id, data := tx.data }) ∧
      BlockBuilt E b := by
  by_cases hq : s.pendingTransactions.length = 0
  · rw [buildBlock_of_empty E parsed now s hq] at h
    exact absurd h (by simp)
  · obtain ⟨b1, hb, -, -, hnum, htx, hbuilt⟩ := buildBlock_of_nonempty E parsed now s hq
    rw [hb] at h
    have hbb : b1 = b := Option.some.inj h
    subst hbb
    exact ⟨hq, by rw [hb], hnum, htx, hbuilt⟩

theorem reachable_blockNumber (E : Ethers D B P) (s : AHINChainService D P)
    (hs : Reachable E s) :
    ∀ (i : Nat) (h : i < s.chain.length), s.chain[i].blockNumber = i + 1 := by
  refine Reachable.induct E
    (motive := fun s => ∀ (i : Nat) (h : i < s.chain.length), s.chain[i].blockNumber = i + 1)
    ?_ ?_ s hs
  · intro i h
    exact absurd h (by simp [AHINChainService.new])
  · intro s c _ ih
    cases c with
    | addTransaction txData now => exact ih
    | buildBlock parsed now =>
      show ∀ (i : Nat) (h : i < (buildBlock E parsed now s).2.chain.length),
        (buildBlock E parsed now s).2.chain[i].blockNumber = i + 1
      by_cases hq : s.pendingTransactions.length = 0
      · rw [buildBlock_of_empty E parsed now s hq]
        exact ih
      · obtain ⟨b, hb, -, -, hnum, -, -⟩ := buildBlock_of_nonempty E parsed now s hq
        rw [hb]
        intro i h
        simp only [List.length_append, List.length_singleton] at h
        by_cases hi : i < s.chain.length
        · simp only [List.getElem_append_left hi]
          exact ih i hi
        · have hie : i = s.chain.length := by omega
          subst hie
          simp only [List.getElem_append_right (Nat.le_refl _), Nat.sub_self,
            List.getElem_cons_zero]
          exact hnum

/-! ## The queue, block numbers and lookups -/

/-- C11: sequence numbers. In every reachable state the block at position `i` of the chain
(counted from 0) has `blockNumber = i + 1`, so numbers start at 1 and go up by exactly 1;
and the block that `buildBlock` returns has `blockNumber` equal to the chain length
before the call plus 1. -/
theorem blockNumber_sequence (E : Ethers D B P) (s : AHINChainService D P)
    (hs : Reachable E s) :
    (∀ (i : Nat) (h : i < s.chain.length), s.chain[i].blockNumber = i + 1) ∧
      ∀ (parsed : Option Int) (now : Nat) (b : Block D P),
        (buildBlock E parsed now s).1 = some b → b.blockNumber = s.chain.length + 1 :=
  ⟨reachable_blockNumber E s hs,
    fun parsed now b h => (buildBlock_eq_some E parsed now s b h).2.2.1⟩

/-- Witness for C11 on a run that builds two blocks. -/
theorem blockNumber_sequence_witness :
    Reachable toyEthers (run toyEthers sampleCalls) ∧
      (run toyEthers sampleCalls).chain.map (fun b => b.blockNumber) = [1, 2] ∧
      ∀ (i : Nat) (h : i < (run toyEthers sampleCalls).chain.length),
        (run toyEthers sampleCalls).chain[i].blockNumber = i + 1 :=
  ⟨⟨sampleCalls, rfl⟩, rfl, (blockNumber_sequence toyEthers _ ⟨sampleCalls, rfl⟩).1⟩

/-- C12 as stated fails for a negative batch size. With `AHIN_BATCH_SIZE` parsed to `-1`
and one pending payload, `buildBlock` returns a block with no transactions, and its
`transactionCount`, 0, is not at most the batch size `-1`. -/
theorem transactionCount_exceeds_negative_batchSize :
    ∃ b : Block Nat Nat,
      (buildBlock toyEthers (some (-1)) 20 (run toyEthers [.addTransaction 1 10])).1 = some b ∧
        batchSize (some (-1)) = -1 ∧ b.transactions = [] ∧ b.transactionCount = 0 ∧
        ¬ ((b.transactionCount : Int) ≤ batchSize (some (-1))) :=
  ⟨_, rfl, rfl, rfl, rfl, by decide⟩

/-- C12, amended: for every block returned by `buildBlock`, `transactionCount` is the
length of the block's transactions list and is at most `max(B, 0)`, where `B` is the
parsed `AHIN_BATCH_SIZE` when that is a non-zero integer and 100 otherwise; so
`transactionCount ≤ B` whenever `B` is not negative. -/
theorem transactionCount_le_batchSize (E : Ethers D B P) (parsed : Option Int) (now : Nat)
    (s : AHINChainService D P) (b : Block D P) (h : (buildBlock E parsed now s).1 = some b) :
    b.transactionCount = b.transactions.length ∧
      b.transactionCount ≤ (batchSize parsed).toNat ∧
      (0 ≤ batchSize parsed → (b.transactionCount : Int) ≤ batchSize parsed) := by
  obtain ⟨-, -, -, htx, hbuilt⟩ := buildBlock_eq_some E parsed now s b h
  have hlen : b.transactionCount ≤ (batchSize parsed).toNat := by
    rw [hbuilt.2.2, htx, List.length_map, List.length_take]
    exact Nat.min_le_left _ _
  refine ⟨hbuilt.2.2, hlen, ?_⟩
  intro h0
  have hcast : ((batchSize parsed).toNat : Int) = batchSize parsed := Int.toNat_of_nonneg h0
  rw [← hcast]
  exact Int.ofNat_le.mpr hlen

/-- Witness for the amended C12: a block built with batch size 2 from three pending
payloads. -/
theorem transactionCount_le_batchSize_witness :
    ∃ b : Block Nat Nat,
      (buildBlock toyEthers (some 2) 20 (run toyEthers pendingCalls)).1 = some b ∧
        b.transactionCount = 2 ∧ b.transactionCount = b.transactions.length ∧
        b.transactionCount ≤ (batchSize (some 2)).toNat :=
  ⟨_, rfl, rfl,
    (transactionCount_le_batchSize toyEthers (some 2) 20 (run toyEthers pendingCalls) _ rfl).1,
    (transactionCount_le_batchSize toyEthers (some 2) 20 (run toyEthers pendingCalls) _
      rfl).2.1⟩

/-- C13: no-op build. When the pending queue is empty `buildBlock` returns `null` and the
service is unchanged: the same chain and the same (empty) queue. -/
theorem buildBlock_noop (E : Ethers D B P) (parsed : Option Int) (now : Nat)
    (s : AHINChainService D P) (h : s.pendingTransactions = []) :
    (buildBlock E parsed now s).1 = none ∧ (buildBlock E parsed now s).2 = s ∧
      (buildBlock E parsed now s).2.chain = s.chain ∧
      (buildBlock E parsed now s).2.pendingTransactions = s.pendingTransactions := by
  have hq : s.pendingTransactions.length = 0 := by
    rw [h]
    rfl
  rw [buildBlock_of_empty E parsed now s hq]
  exact ⟨rfl, rfl, rfl, rfl⟩

/-- Witness for C13: a build right after a build that emptied the queue. -/
theorem buildBlock_noop_witness :
    (run toyEthers sampleCalls).pendingTransactions = [] ∧
      (buildBlock toyEthers none 50 (run toyEthers sampleCalls)).1 = none ∧
      (buildBlock toyEthers none 50 (run toyEthers sampleCalls)).2 = run toyEthers sampleCalls :=
  ⟨rfl, (buildBlock_noop toyEthers none 50 (run toyEthers sampleCalls) rfl).1,
    (buildBlock_noop toyEthers none 50 (run toyEthers sampleCalls) rfl).2.1⟩

/-- C14: FIFO drain. For a non-empty pending queue `q` and batch size `B ≥ 1`,
`buildBlock` returns a block whose transactions are exactly the first `min(B, |q|)`
entries of `q` in queue order, with the same ids and data, and the pending queue
afterwards is the remaining suffix of `q` in the same order. -/
theorem buildBlock_fifo_drain (E : Ethers D B P) (parsed : Option Int) (now : Nat)
    (s : AHINChainService D P)
    (hq : s.pendingTransactions ≠ []) (hB : 1 ≤ batchSize parsed) :
    ∃ b : Block D P,
      (buildBlock E parsed now s).1 = some b ∧
        b.transactions
          = (s.pendingTransactions.take (batchSize parsed).toNat).map
              (fun tx => { id := tx.id, data := tx.data }) ∧
        (b.transactions.length : Int)
          = min (batchSize parsed) (s.pendingTransactions.length : Int) ∧
        (buildBlock E parsed now s).2.pendingTransactions
          = s.pendingTransactions.drop (batchSize parsed).toNat ∧
        s.pendingTransactions
          = s.pendingTransactions.take (batchSize parsed).toNat
              ++ (buildBlock E parsed now s).2.pendingTransactions := by
  have hlen : ¬ s.pendingTransactions.length = 0 := by
    intro h0
    exact hq (List.length_eq_zero.mp h0)
  obtain ⟨b, hb, -, -, -, htx, -⟩ := buildBlock_of_nonempty E parsed now s hlen
  refine ⟨b, by rw [hb], htx, ?_, by rw [hb], ?_⟩
  · rw [htx, List.length_map, List.length_take]
    omega
  · rw [hb]
    exact (List.take_append_drop _ s.pendingTransactions).symm

/-- Witness for C14: batch size 2 on a queue of three payloads. -/
theorem buildBlock_fifo_drain_witness :
    (run toyEthers pendingCalls).pendingTransactions.map (fun tx => tx.id) = [101, 102, 103] ∧
      ∃ b : Block Nat Nat,
        (buildBlock toyEthers (some 2) 20 (run toyEthers pendingCalls)).1 = some b ∧
          b.transactions.map (fun tx => tx.id) = [101, 102] ∧
          (buildBlock toyEthers (some 2) 20 (run toyEthers pendingCalls)).2.pendingTransactions.map
              (fun tx => tx.id) = [103] := by
  obtain ⟨b, hb, htx, -, hrest, -⟩ :=
    buildBlock_fifo_drain toyEthers (some 2) 20 (run toyEthers pendingCalls)
      (fun h => absurd (congrArg List.length h) (by decide)) (by decide)
  refine ⟨rfl, b, hb, ?_, ?_⟩
  · rw [htx]
    rfl
  · rw [hrest]
    rfl

/-- C15: in every reachable state, every block of the chain has as `merkleRoot` the result
of `calculateMerkleRoot` on the ids of its transactions in their stored order. -/
theorem merkleRoot_of_stored_transactions (E : Ethers D B P) (s : AHINChainService D P)
    (hs : Reachable E s) :
    ∀ b ∈ s.chain, b.merkleRoot = calculateMerkleRoot E (b.transactions.map (fun tx => tx.id)) :=
  fun b hb => (reachable_blockBuilt E s hs b hb).1

/-- Witness for C15 on a run that builds two blocks. -/
theorem merkleRoot_of_stored_transactions_witness :
    Reachable toyEthers (run toyEthers sampleCalls) ∧
      (run toyEthers sampleCalls).chain.map (fun b => b.transactions.map (fun tx => tx.id))
        = [[101, 102, 103], [104, 105]] ∧
      ∀ b ∈ (run toyEthers sampleCalls).chain,
        b.merkleRoot = calculateMerkleRoot toyEthers (b.transactions.map (fun tx => tx.id)) :=
  ⟨⟨sampleCalls, rfl⟩, rfl,
    merkleRoot_of_stored_transactions toyEthers _ ⟨sampleCalls, rfl⟩⟩

omit [LinearOrder D] in
/-- C16: enqueue. `addTransaction(p)` returns `keccak256` of the serialised payload,
appends exactly one entry with that id and payload at the tail of the pending queue and
leaves the chain unchanged; enqueuing the same payload twice gives two queue entries with
the same id. -/
theorem addTransaction_enqueue (E : Ethers D B P) (p : P) (now now2 : Nat)
    (s : AHINChainService D P) :
    (addTransaction E p now s).1 = E.keccak256 (E.payloadBytes p) ∧
      (addTransaction E p now s).2.pendingTransactions
        = s.pendingTransactions ++
            [{ id := E.keccak256 (E.payloadBytes p), data := p, timestamp := now }] ∧
      (addTransaction E p now s).2.pendingTransactions.length
        = s.pendingTransactions.length + 1 ∧
      (addTransaction E p now s).2.chain = s.chain ∧
      (addTransaction E p now2 (addTransaction E p now s).2).1 = (addTransaction E p now s).1 ∧
      (addTransaction E p now2 (addTransaction E p now s).2).2.pendingTransactions
        = s.pendingTransactions ++
            [{ id := E.keccak256 (E.payloadBytes p), data := p, timestamp := now },
             { id := E.keccak256 (E.payloadBytes p), data := p, timestamp := now2 }] := by
  refine ⟨rfl, rfl, ?_, rfl, rfl, ?_⟩
  · simp [addTransaction]
  · simp [addTransaction]

/-- C17: not found. `generateMerkleProof(txId)` returns `null` exactly when no block of
the chain holds a transaction with id `txId`; it returns a list for every id held by a
block, and `null` for an id that was only enqueued, whatever the pending queue holds. -/
theorem generateMerkleProof_eq_none_iff (E : Ethers D B P) (s : AHINChainService D P)
    (txId : D) :
    (generateMerkleProof E s txId = none ↔
        ∀ b ∈ s.chain, ∀ tx ∈ b.transactions, tx.id ≠ txId) ∧
      ((∃ b ∈ s.chain, ∃ tx ∈ b.transactions, tx.id = txId) →
        ∃ proof : List D, generateMerkleProof E s txId = some proof) ∧
      ∀ (p : P) (now : Nat),
        generateMerkleProof E (addTransaction E p now s).2 txId = generateMerkleProof E s txId := by
  have hiff : generateMerkleProof E s txId = none ↔
      ∀ b ∈ s.chain, ∀ tx ∈ b.transactions, tx.id ≠ txId := by
    unfold generateMerkleProof
    constructor
    · intro h b hb tx htx hid
      have hfind : s.chain.find? (fun b => b.transactions.any (fun tx => decide (tx.id = txId)))
          = none := by
        cases hf : s.chain.find? (fun b => b.transactions.any (fun tx => decide (tx.id = txId)))
          with
        | none => rfl
        | some blk =>
          rw [hf] at h
          exact absurd h (by simp)
      rw [List.find?_eq_none] at hfind
      exact hfind b hb (List.any_eq_true.mpr ⟨tx, htx, decide_eq_true hid⟩)
    · intro h
      have hfind : s.chain.find? (fun b => b.transactions.any (fun tx => decide (tx.id = txId)))
          = none := by
        rw [List.find?_eq_none]
        intro b hb hany
        obtain ⟨tx, htx, hid⟩ := List.any_eq_true.mp hany
        exact h b hb tx htx (of_decide_eq_true hid)
      rw [hfind]
  refine ⟨hiff, ?_, ?_⟩
  · rintro ⟨b, hb, tx, htx, hid⟩
    cases hg : generateMerkleProof E s txId with
    | some proof => exact ⟨proof, rfl⟩
    | none => exact absurd hid (hiff.mp hg b hb tx htx)
  · intro p now
    rfl

/-! ## The anchoring cycle -/

theorem anchorPendingBlocks_of_empty {M R : Type} (E : Ethers D B P) (uri : D → M)
    (parsed : Option Int) (now : Nat) (outcome : CommitOutcome R) (s : AnchorState D P M)
    (h : s.chainService.pendingTransactions.length = 0) :
    anchorPendingBlocks E uri parsed now outcome s = (.ok none, s) := by
  unfold anchorPendingBlocks anchorPendingBlocks_try
  rw [buildBlock_of_empty E parsed now s.chainService h]

theorem anchorPendingBlocks_of_nonempty {M R : Type} (E : Ethers D B P) (uri : D → M)
    (parsed : Option Int) (now : Nat) (outcome : CommitOutcome R) (s : AnchorState D P M)
    (h : ¬ s.chainService.pendingTransactions.length = 0) :
    ∃ b : Block D P,
      (buildBlock E parsed now s.chainService).1 = some b ∧
        (anchorPendingBlocks E uri parsed now outcome s).2
          = { chainService := (buildBlock E parsed now s.chainService).2
              anchorCalls := s.anchorCalls ++
                [{ merkleRoot := b.merkleRoot, transactionCount := b.transactionCount,
                   metadataURI := uri b.hash }] } ∧
        (anchorPendingBlocks E uri parsed now outcome s).1
          = (match outcome with
             | .committed receiptHash =>
               .ok (some { blockNumber := b.blockNumber, txHash := receiptHash })
             | .anchorBlockRejected => .ok none
             | .waitFailed => .ok none) := by
  obtain ⟨b, hb, -⟩ := buildBlock_of_nonempty E parsed now s.chainService h
  refine ⟨b, by rw [hb], ?_, ?_⟩
  · unfold anchorPendingBlocks anchorPendingBlocks_try
    rw [hb]
    cases outcome <;> rfl
  · unfold anchorPendingBlocks anchorPendingBlocks_try
    rw [hb]
    cases outcome <;> rfl

/-- C18 as stated fails: a failed commit is not attempted again. From three pending
payloads, a cycle whose `tx.wait()` fails leaves one block in the chain and one call of
`anchorBlock`; the next cycle finds the queue empty, returns without a value and sends no
call to the contract, so the block built before is never committed again. -/
theorem failed_commit_not_retried :
    afterFailedCycle.chainService.chain.map (fun b => b.blockNumber) = [1] ∧
      afterFailedCycle.chainService.pendingTransactions.length = 0 ∧
      afterFailedCycle.anchorCalls.length = 1 ∧
      (anchorPendingBlocks toyEthers (fun hash => hash) none 30
          (CommitOutcome.committed 7) afterFailedCycle).1 = .ok none ∧
      (anchorPendingBlocks toyEthers (fun hash => hash) none 30
          (CommitOutcome.committed 7) afterFailedCycle).2.anchorCalls
        = afterFailedCycle.anchorCalls ∧
      (anchorPendingBlocks toyEthers (fun hash => hash) none 30
          (CommitOutcome.committed 7) afterFailedCycle).2.anchorCalls.length ≠ 2 := by
  have h := anchorPendingBlocks_of_empty toyEthers (fun hash => hash) none 30
    (CommitOutcome.committed 7) afterFailedCycle rfl
  rw [h]
  exact ⟨rfl, rfl, rfl, rfl, rfl, by decide⟩

/-- C18, amended: if the external commit fails for the block built in a cycle of
`anchorPendingBlocks`, the cycle returns no value, that block remains in the chain and the
next cycle does not append it a second time; the next cycle does not commit it again
either: when the queue is empty it returns no value, changes nothing and sends no call,
and when the queue is not empty it sends exactly one call, for the block it newly builds,
whose `blockNumber` is one more. Here `s1` is any state with the chain and the calls left
by the failed cycle, whatever was enqueued since. -/
theorem failed_commit_block_stays {M R : Type} (E : Ethers D B P) (uri : D → M)
    (parsed parsed2 : Option Int) (now now2 : Nat) (outcome outcome2 : CommitOutcome R)
    (s s1 s2 : AnchorState D P M)
    (hq : s.chainService.pendingTransactions ≠ [])
    (hfail : outcome = .anchorBlockRejected ∨ outcome = .waitFailed)
    (h1 : s1.chainService.chain
      = (anchorPendingBlocks E uri parsed now outcome s).2.chainService.chain)
    (h1c : s1.anchorCalls = (anchorPendingBlocks E uri parsed now outcome s).2.anchorCalls)
    (h2 : (anchorPendingBlocks E uri parsed2 now2 outcome2 s1).2 = s2) :
    ∃ b : Block D P,
      (buildBlock E parsed now s.chainService).1 = some b ∧
        (anchorPendingBlocks E uri parsed now outcome s).1 = .ok none ∧
        s1.chainService.chain = s.chainService.chain ++ [b] ∧
        s1.anchorCalls = s.anchorCalls ++
          [{ merkleRoot := b.merkleRoot, transactionCount := b.transactionCount,
             metadataURI := uri b.hash }] ∧
        (s1.chainService.pendingTransactions = [] →
          (anchorPendingBlocks E uri parsed2 now2 outcome2 s1).1 = .ok none ∧
            s2 = s1 ∧
            s2.chainService.chain = s.chainService.chain ++ [b] ∧
            s2.anchorCalls = s1.anchorCalls) ∧
        (s1.chainService.pendingTransactions ≠ [] →
          ∃ b2 : Block D P,
            (buildBlock E parsed2 now2 s1.chainService).1 = some b2 ∧
              s2.chainService.chain = s.chainService.chain ++ [b, b2] ∧
              b2.blockNumber = b.blockNumber + 1 ∧
              s2.anchorCalls = s1.anchorCalls ++
                [{ merkleRoot := b2.merkleRoot, transactionCount := b2.transactionCount,
                   metadataURI := uri b2.hash }] ∧
              s2.anchorCalls.length = s1.anchorCalls.length + 1) := by
  have hlen : ¬ s.chainService.pendingTransactions.length = 0 := by
    intro h0
    exact hq (List.length_eq_zero.mp h0)
  obtain ⟨b, hb, hstate, hres⟩ := anchorPendingBlocks_of_nonempty E uri parsed now outcome s hlen
  obtain ⟨-, hbuild, hnum, -, -⟩ := buildBlock_eq_some E parsed now s.chainService b hb
  have hchain1 : s1.chainService.chain = s.chainService.chain ++ [b] := by
    rw [h1, hstate, hbuild]
  have hcalls1 : s1.anchorCalls = s.anchorCalls ++
      [{ merkleRoot := b.merkleRoot, transactionCount := b.transactionCount,
         metadataURI := uri b.hash }] := by
    rw [h1c, hstate]
  refine ⟨b, hb, ?_, hchain1, hcalls1, ?_, ?_⟩
  · rw [hres]
    rcases hfail with hf | hf <;> rw [hf]
  · intro h0
    have hq1 : s1.chainService.pendingTransactions.length = 0 := by
      rw [h0]
      rfl
    have hcycle := anchorPendingBlocks_of_empty E uri parsed2 now2 outcome2 s1 hq1
    have hs2 : s2 = s1 := by
      rw [← h2, hcycle]
    refine ⟨by rw [hcycle], hs2, ?_, ?_⟩
    · rw [hs2]
      exact hchain1
    · rw [hs2]
  · intro hne
    have hq1 : ¬ s1.chainService.pendingTransactions.length = 0 :=
      fun h0 => hne (List.length_eq_zero.mp h0)
    obtain ⟨b2, hb2, hstate2, -⟩ :=
      anchorPendingBlocks_of_nonempty E uri parsed2 now2 outcome2 s1 hq1
    obtain ⟨-, hbuild2, hnum2, -, -⟩ := buildBlock_eq_some E parsed2 now2 s1.chainService b2 hb2
    have hcalls2 : s2.anchorCalls = s1.anchorCalls ++
        [{ merkleRoot := b2.merkleRoot, transactionCount := b2.transactionCount,
           metadataURI := uri b2.hash }] := by
      rw [← h2, hstate2]
    refine ⟨b2, hb2, ?_, ?_, hcalls2, ?_⟩
    · rw [← h2, hstate2, hbuild2]
      show s1.chainService.chain ++ [b2] = _
      rw [hchain1, List.append_assoc]
      rfl
    · rw [hnum2, hnum, hchain1, List.length_append]
      rfl
    · rw [hcalls2, List.length_append]
      rfl

/-- Witness for the amended C18: from three pending payloads, a cycle whose `tx.wait()`
fails, then a cycle on the empty queue, which sends no call. -/
theorem failed_commit_block_stays_witness :
    pendingAnchorState.chainService.pendingTransactions.length = 3 ∧
      afterFailedCycle.chainService.pendingTransactions = [] ∧
      (anchorPendingBlocks toyEthers (fun hash => hash) none 30
          (CommitOutcome.committed 7) afterFailedCycle).2.anchorCalls
        = afterFailedCycle.anchorCalls ∧
      ∃ b : Block Nat Nat,
        (buildBlock toyEthers none 20 pendingAnchorState.chainService).1 = some b ∧
          afterFailedCycle.chainService.chain = pendingAnchorState.chainService.chain ++ [b] := by
  obtain ⟨b, hb, -, hchain, -, hempty, -⟩ :=
    failed_commit_block_stays toyEthers (fun hash => hash) none none 20 30
      (CommitOutcome.waitFailed : CommitOutcome Nat) (CommitOutcome.committed 7)
      pendingAnchorState afterFailedCycle
      (anchorPendingBlocks toyEthers (fun hash => hash) none 30
        (CommitOutcome.committed 7) afterFailedCycle).2
      (fun h => absurd (congrArg List.length h) (by decide)) (Or.inr rfl) rfl rfl rfl
  exact ⟨rfl, rfl, (hempty rfl).2.2.2, b, hb, hchain⟩

/-- C19: a failed anchor never re-queues events. For a non-empty queue, after a cycle of
`anchorPendingBlocks` the pending queue is the queue before without the drained head
entries and the chain is the chain before plus the one new block, whatever the outcome of
the commit: the state after a failed commit is the state after a successful one. -/
theorem failed_anchor_keeps_drain {M R : Type} (E : Ethers D B P) (uri : D → M)
    (parsed : Option Int) (now : Nat) (outcome outcome2 : CommitOutcome R)
    (s : AnchorState D P M) (hq : s.chainService.pendingTransactions ≠ []) :
    ∃ b : Block D P,
      (buildBlock E parsed now s.chainService).1 = some b ∧
        (anchorPendingBlocks E uri parsed now outcome s).2.chainService.pendingTransactions
          = s.chainService.pendingTransactions.drop (batchSize parsed).toNat ∧
        (anchorPendingBlocks E uri parsed now outcome s).2.chainService.chain
          = s.chainService.chain ++ [b] ∧
        (anchorPendingBlocks E uri parsed now outcome s).2
          = (anchorPendingBlocks E uri parsed now outcome2 s).2 := by
  have hlen : ¬ s.chainService.pendingTransactions.length = 0 := by
    intro h0
    exact hq (List.length_eq_zero.mp h0)
  obtain ⟨b, hb, hstate, -⟩ := anchorPendingBlocks_of_nonempty E uri parsed now outcome s hlen
  obtain ⟨b2, hb2, hstate2, -⟩ :=
    anchorPendingBlocks_of_nonempty E uri parsed now outcome2 s hlen
  obtain ⟨-, hbuild, -, -, -⟩ := buildBlock_eq_some E parsed now s.chainService b hb
  have hbb : b2 = b := by
    rw [hb] at hb2
    exact (Option.some.inj hb2).symm
  subst hbb
  refine ⟨b2, hb, ?_, ?_, ?_⟩
  · rw [hstate, hbuild]
  · rw [hstate, hbuild]
  · rw [hstate, hstate2]

/-- Witness for C19: a failed and a successful commit from three pending payloads. -/
theorem failed_anchor_keeps_drain_witness :
    pendingAnchorState.chainService.pendingTransactions.length = 3 ∧
      afterFailedCycle
        = (anchorPendingBlocks toyEthers (fun hash => hash) none 20
            (CommitOutcome.committed 7) pendingAnchorState).2 := by
  obtain ⟨b, -, -, -, hsame⟩ :=
    failed_anchor_keeps_drain toyEthers (fun hash => hash) none 20
      (CommitOutcome.waitFailed : CommitOutcome Nat) (CommitOutcome.committed 7)
      pendingAnchorState (fun h => absurd (congrArg List.length h) (by decide))
  exact ⟨rfl, hsame⟩

/-- C20: anchoring errors are absorbed. For every outcome of the external commit
`anchorPendingBlocks` completes without raising; it returns `{ blockNumber, txHash }` of
the built block when the commit succeeds, and no value when `anchorBlock` rejects, when
`tx.wait()` fails, or when there was nothing to build. -/
theorem anchorPendingBlocks_absorbs_errors {M R : Type} (E : Ethers D B P) (uri : D → M)
    (parsed : Option Int) (now : Nat) (outcome : CommitOutcome R) (s : AnchorState D P M) :
    (∃ value, (anchorPendingBlocks E uri parsed now outcome s).1 = .ok value) ∧
      (s.chainService.pendingTransactions = [] →
        (anchorPendingBlocks E uri parsed now outcome s).1 = .ok none) ∧
      ∀ b : Block D P, (buildBlock E parsed now s.chainService).1 = some b →
        (∀ receiptHash : R, outcome = .committed receiptHash →
          (anchorPendingBlocks E uri parsed now outcome s).1
            = .ok (some { blockNumber := b.blockNumber, txHash := receiptHash })) ∧
        (outcome = .anchorBlockRejected ∨ outcome = .waitFailed →
          (anchorPendingBlocks E uri parsed now outcome s).1 = .ok none ∧
          ∃ error, (anchorPendingBlocks_try E uri parsed now outcome s).1 = .error error) := by
  by_cases hq : s.chainService.pendingTransactions.length = 0
  · have h := anchorPendingBlocks_of_empty E uri parsed now outcome s hq
    refine ⟨⟨none, by rw [h]⟩, fun _ => by rw [h], ?_⟩
    intro b hb
    rw [buildBlock_of_empty E parsed now s.chainService hq] at hb
    exact absurd hb (by simp)
  · obtain ⟨b, hb, -, hres⟩ := anchorPendingBlocks_of_nonempty E uri parsed now outcome s hq
    refine ⟨?_, ?_, ?_⟩
    · rw [hres]
      cases outcome
      · exact ⟨_, rfl⟩
      · exact ⟨_, rfl⟩
      · exact ⟨_, rfl⟩
    · intro h0
      rw [h0] at hq
      exact absurd rfl hq
    · intro b1 hb1
      have hbb : b1 = b := by
        rw [hb] at hb1
        exact (Option.some.inj hb1).symm
      subst hbb
      obtain ⟨b2, hb2, -⟩ := buildBlock_of_nonempty E parsed now s.chainService hq
      refine ⟨?_, ?_⟩
      · intro receiptHash ho
        rw [hres, ho]
      · intro ho
        refine ⟨?_, ?_⟩
        · rw [hres]
          rcases ho with hf | hf <;> rw [hf]
        · unfold anchorPendingBlocks_try
          rw [hb2]
          rcases ho with hf | hf <;> rw [hf]
          · exact ⟨_, rfl⟩
          · exact ⟨_, rfl⟩

/-- Witness for C20: a successful commit returns the number of the built block and the
receipt hash. -/
theorem anchorPendingBlocks_absorbs_errors_witness :
    (anchorPendingBlocks toyEthers (fun hash => hash) none 20
        (CommitOutcome.committed 7) pendingAnchorState).1
      = .ok (some { blockNumber := 1, txHash := 7 }) :=
  (anchorPendingBlocks_absorbs_errors toyEthers (fun hash => hash) none 20
    (CommitOutcome.committed 7) pendingAnchorState).2.2 _ rfl |>.1 7 rfl

/-! ## Levels, proof lengths and termination -/

omit [LinearOrder D] in
theorem siblingOf_length_le : ∀ (level : List D) (k : Nat), (siblingOf level k).length ≤ 1
  | [], _ => by simp [siblingOf]
  | [a], k => by
    simp only [siblingOf]
    split <;> simp
  | a :: b :: rest, k => by
    simp only [siblingOf]
    split
    · simp
    · split
      · simp
      · exact siblingOf_length_le rest (k - 2)

theorem siblingOf_even (E : Ethers D B P) :
    ∀ (level : List D) (k : Nat) (y : D), level.length % 2 = 0 → level[k]? = some y →
      ∃ x, siblingOf level k = [x] ∧ (pairUp E level)[k / 2]? = some (combine E y x)
  | [], k, y, _, h => by simp at h
  | [a], k, y, heven, _ => by simp at heven
  | a :: b :: rest, 0, y, _, h => by
    simp only [List.getElem?_cons_zero, Option.some.injEq] at h
    subst h
    exact ⟨b, by simp [siblingOf], by simp [pairUp]⟩
  | a :: b :: rest, 1, y, _, h => by
    simp only [List.getElem?_cons_succ, List.getElem?_cons_zero, Option.some.injEq] at h
    subst h
    exact ⟨a, by simp [siblingOf], by simp [pairUp, combine_comm E b a]⟩
  | a :: b :: rest, k + 2, y, heven, h => by
    have heven2 : rest.length % 2 = 0 := by
      simp only [List.length_cons] at heven
      omega
    have h2 : rest[k]? = some y := by
      simpa only [List.getElem?_cons_succ] using h
    obtain ⟨x, hx, hp⟩ := siblingOf_even E rest k y heven2 h2
    refine ⟨x, ?_, ?_⟩
    · simp only [siblingOf]
      rw [if_neg (by omega), if_neg (by omega)]
      exact hx
    · have hdiv : (k + 2) / 2 = k / 2 + 1 := by omega
      rw [hdiv]
      simp only [pairUp, List.getElem?_cons_succ]
      exact hp

theorem _generateProof_perfect (E : Ethers D B P) :
    ∀ (n : Nat) (leaves : List D) (index : Nat) (y : D),
      leaves.length = 2 ^ n → leaves[index]? = some y →
        (_generateProof E leaves index).foldl (combine E) y = calculateMerkleRoot E leaves ∧
          (_generateProof E leaves index).length = n
  | 0, leaves, index, y, hlen, hy => by
    simp only [pow_zero] at hlen
    match leaves, hlen with
    | [x], _ =>
      have hi : index = 0 := by
        have hlt := (List.getElem?_eq_some.mp hy).1
        simp only [List.length_singleton] at hlt
        omega
      subst hi
      simp only [List.getElem?_cons_zero, Option.some.injEq] at hy
      subst hy
      rw [_generateProof_of_le_one E _ _ (by simp), calculateMerkleRoot_singleton]
      exact ⟨rfl, rfl⟩
  | n + 1, leaves, index, y, hlen, hy => by
    have hpow : 2 ^ (n + 1) = 2 * 2 ^ n := by ring
    have hpos : 0 < 2 ^ n := Nat.pow_pos (by decide)
    have h2 : 2 ≤ leaves.length := by omega
    have heven : leaves.length % 2 = 0 := by omega
    obtain ⟨x, hx, hp⟩ := siblingOf_even E leaves index y heven hy
    have hlen2 : (pairUp E leaves).length = 2 ^ n := by
      rw [pairUp_length]
      omega
    obtain ⟨ihfold, ihlen⟩ :=
      _generateProof_perfect E n (pairUp E leaves) (index / 2) (combine E y x) hlen2 hp
    rw [_generateProof_of_two_le E leaves index h2, hx, calculateMerkleRoot_of_two_le E leaves h2]
    refine ⟨?_, ?_⟩
    · simp only [List.singleton_append, List.foldl_cons]
      exact ihfold
    · simp only [List.singleton_append, List.length_cons, ihlen]

theorem _generateProof_length_le (E : Ethers D B P) (leaves : List D) (index : Nat) :
    (_generateProof E leaves index).length ≤ Nat.clog 2 leaves.length := by
  generalize hn : leaves.length = n
  induction n using Nat.strong_induction_on generalizing leaves index with
  | _ n ih =>
    by_cases h2 : 2 ≤ leaves.length
    · have hlen : (pairUp E leaves).length < n := by
        rw [pairUp_length]
        omega
      have hrec := ih _ hlen (pairUp E leaves) (index / 2) rfl
      have hsib := siblingOf_length_le leaves index
      rw [_generateProof_of_two_le E leaves index h2, List.length_append,
        Nat.clog_of_two_le (by decide) (by omega)]
      rw [pairUp_length, hn] at hrec
      have hdiv : (n + 2 - 1) / 2 = (n + 1) / 2 := by omega
      rw [hdiv]
      omega
    · rw [_generateProof_of_le_one E leaves index (by omega)]
      exact Nat.zero_le _

theorem pairUp_append_last (E : Ethers D B P) :
    ∀ (leaves : List D) (x : D), leaves.length % 2 = 1 → leaves.getLast? = some x →
      pairUp E (leaves ++ [x]) = pairUp E leaves
  | [], _, h, _ => by simp at h
  | [a], x, _, hlast => by
    simp only [List.getLast?_singleton, Option.some.injEq] at hlast
    subst hlast
    simp [pairUp]
  | [a, b], _, h, _ => by simp at h
  | a :: b :: c :: rest, x, hodd, hlast => by
    have hodd2 : (c :: rest).length % 2 = 1 := by
      simp only [List.length_cons] at hodd ⊢
      omega
    have hlast2 : (c :: rest).getLast? = some x := by
      simpa only [List.getLast?_cons_cons] using hlast
    have ih := pairUp_append_last E (c :: rest) x hodd2 hlast2
    show pairUp E (a :: b :: ((c :: rest) ++ [x])) = pairUp E (a :: b :: c :: rest)
    simp only [pairUp] at ih ⊢
    rw [ih]

theorem pairUp_iterate_clog (E : Ethers D B P) (leaves : List D) (h : 1 ≤ leaves.length) :
    (pairUp E)^[Nat.clog 2 leaves.length] leaves = [calculateMerkleRoot E leaves] := by
  generalize hn : leaves.length = n
  induction n using Nat.strong_induction_on generalizing leaves with
  | _ n ih =>
    by_cases h2 : 2 ≤ leaves.length
    · have hlen : (pairUp E leaves).length < n := by
        rw [pairUp_length]
        omega
      have hpos : 1 ≤ (pairUp E leaves).length := by
        rw [pairUp_length]
        omega
      have hrec := ih _ hlen (pairUp E leaves) hpos rfl
      have hdiv : (n + 2 - 1) / 2 = (pairUp E leaves).length := by
        rw [pairUp_length]
        omega
      rw [Nat.clog_of_two_le (by decide) (by omega), hdiv, Function.iterate_succ_apply, hrec,
        calculateMerkleRoot_of_two_le E leaves h2]
    · have h1 : leaves.length = 1 := by omega
      obtain ⟨x, hx⟩ := List.length_eq_one.mp h1
      subst hx
      rw [← hn, calculateMerkleRoot_singleton, List.length_singleton, Nat.clog_one_right]
      rfl

theorem _generateProof_while_eq_iterate (E : Ethers D B P) (s : ProofState D) :
    _generateProof_while E s
      = (_generateProof_body E)^[Nat.clog 2 s.currentLevel.length] s := by
  generalize hn : s.currentLevel.length = n
  induction n using Nat.strong_induction_on generalizing s with
  | _ n ih =>
    by_cases h2 : 2 ≤ s.currentLevel.length
    · have hlevel : (_generateProof_body E s).currentLevel.length = (n + 1) / 2 := by
        rw [_generateProof_body_eq]
        show (pairUp E s.currentLevel).length = _
        rw [pairUp_length, hn]
      have hrec := ih _ (show (n + 1) / 2 < n by omega) (_generateProof_body E s) hlevel
      have hdiv : (n + 2 - 1) / 2 = (n + 1) / 2 := by omega
      rw [_generateProof_while_step E s (by omega), Nat.clog_of_two_le (by decide) (by omega),
        hdiv, Function.iterate_succ_apply, hrec]
    · rw [_generateProof_while_done E s (by omega), Nat.clog_of_right_le_one (by omega)]
      rfl

/-- C24: duplicate-last collision. For a leaf list of odd length at least 3 with last leaf
`x`, the root of the list equals the root of the list with `x` appended once more; so two
blocks that hold these two different id lists, with different transaction counts, have
the same `merkleRoot`. -/
theorem calculateMerkleRoot_duplicate_last (E : Ethers D B P) (leaves : List D) (x : D)
    (h3 : 3 ≤ leaves.length) (hodd : leaves.length % 2 = 1)
    (hlast : leaves.getLast? = some x) :
    calculateMerkleRoot E leaves = calculateMerkleRoot E (leaves ++ [x]) ∧
      leaves ≠ leaves ++ [x] ∧
      ∀ b1 b2 : Block D P, BlockBuilt E b1 → BlockBuilt E b2 →
        b1.transactions.map (fun tx => tx.id) = leaves →
        b2.transactions.map (fun tx => tx.id) = leaves ++ [x] →
        b1.merkleRoot = b2.merkleRoot ∧ b2.transactionCount = b1.transactionCount + 1 := by
  have hroot : calculateMerkleRoot E leaves = calculateMerkleRoot E (leaves ++ [x]) := by
    rw [calculateMerkleRoot_of_two_le E leaves (by omega),
      calculateMerkleRoot_of_two_le E (leaves ++ [x])
        (by simp only [List.length_append, List.length_singleton]; omega),
      pairUp_append_last E leaves x hodd hlast]
  refine ⟨hroot, ?_, ?_⟩
  · intro h
    have hl := congrArg List.length h
    simp only [List.length_append, List.length_singleton] at hl
    omega
  · intro b1 b2 hb1 hb2 h1 h2
    refine ⟨?_, ?_⟩
    · rw [hb1.1, hb2.1, h1, h2, hroot]
    · have l1 : b1.transactions.length = leaves.length := by
        rw [← h1, List.length_map]
      have l2 : b2.transactions.length = leaves.length + 1 := by
        rw [← List.length_map b2.transactions (fun tx => tx.id), h2]
        simp
      rw [hb1.2.2, hb2.2.2, l1, l2]

/-- Witness for C24: the leaves `[1, 2, 3]` and `[1, 2, 3, 3]` have the same root. -/
theorem calculateMerkleRoot_duplicate_last_witness :
    calculateMerkleRoot toyEthers [1, 2, 3] = calculateMerkleRoot toyEthers [1, 2, 3, 3] :=
  (calculateMerkleRoot_duplicate_last toyEthers [1, 2, 3] 3 (by decide) (by decide) rfl).1

/-- C26: round trip on perfect trees. For a leaf list of length `2^k` and an index `i`
within it, folding `leaves[i]` with the siblings of `_generateProof(leaves, i)` in order
under the sorted-pair combine gives `calculateMerkleRoot(leaves)`, for any hash. -/
theorem roundtrip_on_perfect_trees (E : Ethers D B P) (k : Nat) (leaves : List D) (i : Nat)
    (hlen : leaves.length = 2 ^ k) (hi : i < leaves.length) :
    (_generateProof E leaves i).foldl (combine E) leaves[i] = calculateMerkleRoot E leaves :=
  (_generateProof_perfect E k leaves i leaves[i] hlen (List.getElem?_eq_getElem hi)).1

/-- Witness for C26: four leaves, index 3. -/
theorem roundtrip_on_perfect_trees_witness :
    (_generateProof toyEthers [1, 2, 3, 4] 3).foldl (combine toyEthers) 4
      = calculateMerkleRoot toyEthers [1, 2, 3, 4] :=
  roundtrip_on_perfect_trees toyEthers 2 [1, 2, 3, 4] 3 (by decide) (by decide)

/-- C28: proof length. For a leaf list of length `n` and an index `i < n` (so `n ≥ 1`),
`_generateProof(leaves, i)` has at most `ceil(log2 n)` elements, exactly `k` elements when
`n = 2^k`, and is empty when `n = 1`. -/
theorem _generateProof_length (E : Ethers D B P) (leaves : List D) (i : Nat)
    (hi : i < leaves.length) :
    (_generateProof E leaves i).length ≤ Nat.clog 2 leaves.length ∧
      (∀ k : Nat, leaves.length = 2 ^ k → (_generateProof E leaves i).length = k) ∧
      (leaves.length = 1 → _generateProof E leaves i = []) :=
  ⟨_generateProof_length_le E leaves i,
    fun k hk =>
      (_generateProof_perfect E k leaves i leaves[i] hk (List.getElem?_eq_getElem hi)).2,
    fun h1 => _generateProof_of_le_one E leaves i (by omega)⟩

/-- Witness for C28: three leaves, index 2, where the bound is 2. -/
theorem _generateProof_length_witness :
    (_generateProof toyEthers [1, 2, 3] 2).length ≤ Nat.clog 2 ([1, 2, 3] : List Nat).length :=
  (_generateProof_length toyEthers [1, 2, 3] 2 (by decide)).1

/-- C30: termination. Each pass of either `for` loop replaces a level of length `n ≥ 2` by
one of length `ceil(n/2) < n`; hence the recursion of `calculateMerkleRoot` reaches a
level of at most one digest after `ceil(log2 n)` reductions, where it returns, and the
`while` loop of `_generateProof` exits after the same number of passes. -/
theorem merkle_loops_terminate (E : Ethers D B P) (leaves : List D) (index : Nat) :
    (∀ level : List D, 2 ≤ level.length →
        (calculateMerkleRoot_for E level 0 []).length = (level.length + 1) / 2 ∧
          (calculateMerkleRoot_for E level 0 []).length < level.length) ∧
      (∀ s : ProofState D, 2 ≤ s.currentLevel.length →
        (_generateProof_body E s).currentLevel.length = (s.currentLevel.length + 1) / 2 ∧
          (_generateProof_body E s).currentLevel.length < s.currentLevel.length) ∧
      (1 ≤ leaves.length →
        (fun level => calculateMerkleRoot_for E level 0 [])^[Nat.clog 2 leaves.length] leaves
          = [calculateMerkleRoot E leaves]) ∧
      _generateProof_while E { proof := [], currentLevel := leaves, currentIndex := index }
        = (_generateProof_body E)^[Nat.clog 2 leaves.length]
            { proof := [], currentLevel := leaves, currentIndex := index } ∧
      ((_generateProof_body E)^[Nat.clog 2 leaves.length]
          { proof := [], currentLevel := leaves, currentIndex := index }).currentLevel.length
        ≤ 1 := by
  have hfun : (fun level => calculateMerkleRoot_for E level 0 []) = pairUp E :=
    funext (calculateMerkleRoot_for_zero E)
  have hwhile := _generateProof_while_eq_iterate E
    { proof := [], currentLevel := leaves, currentIndex := index }
  refine ⟨?_, ?_, ?_, hwhile, ?_⟩
  · intro level h2
    rw [calculateMerkleRoot_for_zero, pairUp_length]
    exact ⟨rfl, by omega⟩
  · intro s h2
    rw [_generateProof_body_eq]
    show (pairUp E s.currentLevel).length = _ ∧ (pairUp E s.currentLevel).length < _
    rw [pairUp_length]
    exact ⟨rfl, by omega⟩
  · intro h1
    rw [hfun]
    exact pairUp_iterate_clog E leaves h1
  · have hlevel := _generateProof_while_eq_reduceUntilOne E
      { proof := [], currentLevel := leaves, currentIndex := index }
    rw [hwhile] at hlevel
    rw [hlevel]
    by_cases h1 : 1 ≤ leaves.length
    · show (reduceUntilOne E leaves).length ≤ 1
      rw [reduceUntilOne_eq_root E leaves h1]
      exact Nat.le_refl _
    · show (reduceUntilOne E leaves).length ≤ 1
      rw [reduceUntilOne_of_lt_two E leaves (by omega)]
      omega

/-! ## Statistics, conservation and the frame of each method -/

omit [LinearOrder D] in
theorem foldl_transactionCount (chain : List (Block D P)) (acc : Nat) :
    chain.foldl (fun sum b => sum + b.transactionCount) acc
      = acc + (chain.map (fun b => b.transactionCount)).sum := by
  induction chain generalizing acc with
  | nil => simp
  | cons b rest ih =>
    simp only [List.foldl_cons, List.map_cons, List.sum_cons, ih]
    omega

omit [LinearOrder D] in
theorem storedIds_append (chain : List (Block D P)) (b : Block D P) :
    storedIds (chain ++ [b]) = storedIds chain ++ b.transactions.map (fun tx => tx.id) := by
  simp [storedIds]

omit [LinearOrder D] in
theorem storedIds_length (chain : List (Block D P))
    (h : ∀ b ∈ chain, b.transactionCount = b.transactions.length) :
    (storedIds chain).length = (chain.map (fun b => b.transactionCount)).sum := by
  induction chain with
  | nil => rfl
  | cons b rest ih =>
    have hb := h b (List.mem_cons_self _ _)
    have hrest := ih (fun c hc => h c (List.mem_cons_of_mem _ hc))
    simp only [storedIds, List.flatMap_cons, List.length_append, List.length_map,
      List.map_cons, List.sum_cons] at hrest ⊢
    rw [hrest, hb]

theorem run_foldl (E : Ethers D B P) (s : AHINChainService D P) (c : Call P)
    (calls : List (Call P)) :
    (c :: calls).foldl (Call.apply E) s = calls.foldl (Call.apply E) (Call.apply E s c) :=
  rfl

theorem conservation_from (E : Ethers D B P) :
    ∀ (calls : List (Call P)) (s : AHINChainService D P),
      storedIds (calls.foldl (Call.apply E) s).chain
          ++ (calls.foldl (Call.apply E) s).pendingTransactions.map (fun tx => tx.id)
        = storedIds s.chain ++ s.pendingTransactions.map (fun tx => tx.id)
            ++ returnedIds E s calls
  | [], s => by simp [returnedIds]
  | .addTransaction txData now :: calls, s => by
    rw [run_foldl, conservation_from E calls]
    simp [Call.apply, returnedIds, addTransaction]
  | .buildBlock parsed now :: calls, s => by
    rw [run_foldl, conservation_from E calls]
    show storedIds (buildBlock E parsed now s).2.chain
        ++ (buildBlock E parsed now s).2.pendingTransactions.map (fun tx => tx.id)
        ++ returnedIds E (buildBlock E parsed now s).2 calls
      = storedIds s.chain ++ s.pendingTransactions.map (fun tx => tx.id)
        ++ returnedIds E (buildBlock E parsed now s).2 calls
    by_cases hq : s.pendingTransactions.length = 0
    · rw [buildBlock_of_empty E parsed now s hq]
    · obtain ⟨b, hb, -, -, -, htx, -⟩ := buildBlock_of_nonempty E parsed now s hq
      have hids : b.transactions.map (fun tx => tx.id)
          = (s.pendingTransactions.take (batchSize parsed).toNat).map (fun tx => tx.id) := by
        rw [htx, List.map_map]
        rfl
      have hsplit : (s.pendingTransactions.take (batchSize parsed).toNat).map (fun tx => tx.id)
          ++ (s.pendingTransactions.drop (batchSize parsed).toNat).map (fun tx => tx.id)
          = s.pendingTransactions.map (fun tx => tx.id) := by
        rw [← List.map_append, List.take_append_drop]
      rw [hb]
      show storedIds (s.chain ++ [b])
        ++ (s.pendingTransactions.drop (batchSize parsed).toNat).map (fun tx => tx.id) ++ _ = _
      rw [storedIds_append, hids, List.append_assoc (storedIds s.chain), hsplit]

theorem findIdx_first_occurrence (txId : D) :
    ∀ (before after : List D), txId ∉ before →
      (before ++ txId :: after).findIdx (fun id => decide (id = txId)) = before.length
  | [], after, _ => by simp [List.findIdx_cons]
  | a :: before, after, h => by
    have ha : ¬ a = txId := fun e => h (by simp [e])
    have hrest : txId ∉ before := fun hm => h (List.mem_cons_of_mem _ hm)
    simp only [List.cons_append, List.findIdx_cons, ha, decide_False, cond_false,
      findIdx_first_occurrence txId before after hrest, List.length_cons]

theorem buildBlock_transactionCount_pos (E : Ethers D B P) (parsed : Option Int) (now : Nat)
    (s : AHINChainService D P) (b : Block D P) (hpos : 1 ≤ batchSize parsed)
    (h : (buildBlock E parsed now s).1 = some b) : 1 ≤ b.transactionCount := by
  obtain ⟨hq, -, -, htx, hbuilt⟩ := buildBlock_eq_some E parsed now s b h
  rw [hbuilt.2.2, htx, List.length_map, List.length_take]
  omega

theorem run_append_singleton (E : Ethers D B P) (calls : List (Call P)) (c : Call P) :
    run E (calls ++ [c]) = Call.apply E (run E calls) c := by
  simp [run]

theorem run_transactionCount_pos (E : Ethers D B P) (calls : List (Call P))
    (hpos : ∀ c ∈ calls, Call.PositiveBatch c) :
    ∀ b ∈ (run E calls).chain, 1 ≤ b.transactionCount := by
  induction calls using List.reverseRecOn with
  | nil =>
    intro b hb
    exact absurd hb (by simp [run, AHINChainService.new])
  | append_singleton calls c ih =>
    have ihc := ih (fun c1 hc1 => hpos c1 (List.mem_append_left _ hc1))
    have hc := hpos c (List.mem_append_right _ (List.mem_singleton_self c))
    rw [run_append_singleton]
    cases c with
    | addTransaction txData now => exact ihc
    | buildBlock parsed now =>
      show ∀ b ∈ (buildBlock E parsed now (run E calls)).2.chain, 1 ≤ b.transactionCount
      by_cases hq : (run E calls).pendingTransactions.length = 0
      · rw [buildBlock_of_empty E parsed now _ hq]
        exact ihc
      · obtain ⟨b, hb, -⟩ := buildBlock_of_nonempty E parsed now (run E calls) hq
        have hcount := buildBlock_transactionCount_pos E parsed now (run E calls) b hc
          (by rw [hb])
        rw [hb]
        intro b1 hb1
        rcases List.mem_append.mp hb1 with hm | hm
        · exact ihc b1 hm
        · rw [List.mem_singleton.mp hm]
          exact hcount

/-- C22: the chain is append-only. After any call of `addTransaction`, `buildBlock`,
`generateMerkleProof` or `getStats` the chain is the chain before followed by the blocks
added, with every earlier block unchanged; at most one block is added, and one is added
exactly by `buildBlock` on a non-empty queue. -/
theorem chain_append_only (E : Ethers D B P) (s : AHINChainService D P)
    (op : Operation D P) :
    ∃ added : List (Block D P),
      (Operation.apply E s op).chain = s.chain ++ added ∧ added.length ≤ 1 ∧
        (added.length = 1 ↔
          ∃ parsed now, op = .buildBlock parsed now ∧ s.pendingTransactions ≠ []) := by
  cases op with
  | addTransaction txData now =>
    refine ⟨[], by simp [Operation.apply, addTransaction], by simp, ?_⟩
    constructor
    · intro h
      exact absurd h (by simp)
    · rintro ⟨parsed, now1, h, -⟩
      exact absurd h (by simp)
  | generateMerkleProof txId =>
    refine ⟨[], by simp [Operation.apply], by simp, ?_⟩
    constructor
    · intro h
      exact absurd h (by simp)
    · rintro ⟨parsed, now1, h, -⟩
      exact absurd h (by simp)
  | getStats =>
    refine ⟨[], by simp [Operation.apply], by simp, ?_⟩
    constructor
    · intro h
      exact absurd h (by simp)
    · rintro ⟨parsed, now1, h, -⟩
      exact absurd h (by simp)
  | buildBlock parsed now =>
    by_cases hq : s.pendingTransactions.length = 0
    · refine ⟨[], ?_, by simp, ?_⟩
      · show (buildBlock E parsed now s).2.chain = _
        rw [buildBlock_of_empty E parsed now s hq]
        simp
      · constructor
        · intro h
          exact absurd h (by simp)
        · rintro ⟨parsed1, now1, -, hne⟩
          exact absurd (List.length_eq_zero.mp hq) hne
    · obtain ⟨b, hb, -⟩ := buildBlock_of_nonempty E parsed now s hq
      refine ⟨[b], ?_, by simp, ?_⟩
      · show (buildBlock E parsed now s).2.chain = _
        rw [hb]
      · constructor
        · intro _
          exact ⟨parsed, now, rfl, fun h0 => hq (by rw [h0]; rfl)⟩
        · intro _
          rfl

/-- C23: `getStats` returns the number of blocks, the sum of the blocks' `transactionCount`
(in a reachable state the number of transactions stored in the blocks), the length of the
pending queue, and the last block or `null` for an empty chain; it changes no state. -/
theorem getStats_spec (E : Ethers D B P) (s : AHINChainService D P) (hs : Reachable E s) :
    (getStats s).totalBlocks = s.chain.length ∧
      (getStats s).totalTransactions = (s.chain.map (fun b => b.transactionCount)).sum ∧
      (getStats s).totalTransactions = (storedIds s.chain).length ∧
      (getStats s).pendingTransactions = s.pendingTransactions.length ∧
      (getStats s).latestBlock = s.chain.getLast? ∧
      (s.chain = [] → (getStats s).latestBlock = none) ∧
      Operation.apply E s .getStats = s := by
  have hsum : (getStats s).totalTransactions
      = (s.chain.map (fun b => b.transactionCount)).sum := by
    show s.chain.foldl (fun sum b => sum + b.transactionCount) 0 = _
    rw [foldl_transactionCount]
    omega
  have hlast : (getStats s).latestBlock = s.chain.getLast? := by
    show s.chain[s.chain.length - 1]? = _
    rw [List.getLast?_eq_getElem?]
  refine ⟨rfl, hsum, ?_, rfl, hlast, ?_, rfl⟩
  · rw [hsum, storedIds_length s.chain (fun b hb => (reachable_blockBuilt E s hs b hb).2.2)]
  · intro h0
    rw [hlast, h0]
    rfl

/-- Witness for C23 on a run that builds two blocks, of three and two transactions. -/
theorem getStats_spec_witness :
    Reachable toyEthers (run toyEthers sampleCalls) ∧
      (getStats (run toyEthers sampleCalls)).totalBlocks = 2 ∧
      (getStats (run toyEthers sampleCalls)).totalTransactions = 5 ∧
      (getStats (run toyEthers sampleCalls)).totalTransactions
        = (storedIds (run toyEthers sampleCalls).chain).length :=
  ⟨⟨sampleCalls, rfl⟩, rfl, rfl,
    (getStats_spec toyEthers (run toyEthers sampleCalls) ⟨sampleCalls, rfl⟩).2.2.1⟩

/-- C25: conservation of events. After any sequence of `addTransaction` and `buildBlock`
calls on a fresh service, the ids of the block transactions in chain order followed by the
ids in the pending queue are the ids that the `addTransaction` calls returned, in call
order; and `totalTransactions + pendingTransactions` of `getStats` is their number. -/
theorem conservation_of_events (E : Ethers D B P) (calls : List (Call P)) :
    storedIds (run E calls).chain ++ (run E calls).pendingTransactions.map (fun tx => tx.id)
        = returnedIds E AHINChainService.new calls ∧
      (getStats (run E calls)).totalTransactions + (getStats (run E calls)).pendingTransactions
        = (returnedIds E AHINChainService.new calls).length := by
  have hcons : storedIds (run E calls).chain
      ++ (run E calls).pendingTransactions.map (fun tx => tx.id)
      = returnedIds E AHINChainService.new calls := by
    have h := conservation_from E calls AHINChainService.new
    simpa [storedIds, AHINChainService.new, run] using h
  refine ⟨hcons, ?_⟩
  have hs : Reachable E (run E calls) := ⟨calls, rfl⟩
  have hlen := congrArg List.length hcons
  rw [List.length_append, List.length_map,
    storedIds_length (run E calls).chain
      (fun b hb => (reachable_blockBuilt E _ hs b hb).2.2)] at hlen
  rw [← hlen]
  show (run E calls).chain.foldl (fun sum b => sum + b.transactionCount) 0 + _ = _
  rw [foldl_transactionCount]
  simp only [getStats]
  omega

/-- C27: no empty block is anchored. When every `buildBlock` ran with a positive effective
batch size (the default 100 stands in for an absent, unparseable or zero value), every
block of the chain has `transactionCount ≥ 1`, and a cycle of `anchorPendingBlocks` with
such a batch size passes no transaction count of 0 to `anchorBlock`. -/
theorem no_empty_block_anchored {M R : Type} (E : Ethers D B P) (uri : D → M)
    (calls : List (Call P)) (hpos : ∀ c ∈ calls, Call.PositiveBatch c) :
    (batchSize none = 100 ∧ batchSize (some 0) = 100) ∧
      (∀ b ∈ (run E calls).chain, 1 ≤ b.transactionCount) ∧
      ∀ (parsed : Option Int) (now : Nat) (outcome : CommitOutcome R)
        (anchorCalls : List (AnchorCall D M)), 1 ≤ batchSize parsed →
        ∀ call ∈ (anchorPendingBlocks E uri parsed now outcome
            { chainService := run E calls, anchorCalls := anchorCalls }).2.anchorCalls,
          call ∈ anchorCalls ∨ 1 ≤ call.transactionCount := by
  refine ⟨⟨rfl, rfl⟩, run_transactionCount_pos E calls hpos, ?_⟩
  intro parsed now outcome anchorCalls hbatch call hcall
  by_cases hq : (run E calls).pendingTransactions.length = 0
  · rw [anchorPendingBlocks_of_empty E uri parsed now outcome _ hq] at hcall
    exact Or.inl hcall
  · obtain ⟨b, hb, hstate, -⟩ := anchorPendingBlocks_of_nonempty E uri parsed now outcome
      { chainService := run E calls, anchorCalls := anchorCalls } hq
    rw [hstate] at hcall
    rcases List.mem_append.mp hcall with hm | hm
    · exact Or.inl hm
    · right
      rw [List.mem_singleton.mp hm]
      exact buildBlock_transactionCount_pos E parsed now (run E calls) b hbatch hb

/-- C29: duplicate ids. When the chain is `pre ++ b :: post` with no block of `pre` holding
the id, and the ids of `b` are `before ++ txId :: after` with `txId` not in `before`,
`generateMerkleProof(txId)` is `_generateProof` over the ids of `b` at index
`before.length`: the earliest block and the smallest index, whatever `after` and `post`
hold. -/
theorem generateMerkleProof_first_occurrence (E : Ethers D B P) (s : AHINChainService D P)
    (pre post : List (Block D P)) (b : Block D P) (txId : D) (before after : List D)
    (hchain : s.chain = pre ++ b :: post)
    (hpre : ∀ b1 ∈ pre, ∀ tx ∈ b1.transactions, tx.id ≠ txId)
    (hids : b.transactions.map (fun tx => tx.id) = before ++ txId :: after)
    (hbefore : txId ∉ before) :
    generateMerkleProof E s txId
      = some (_generateProof E (b.transactions.map (fun tx => tx.id)) before.length) := by
  have hmem : ∃ tx ∈ b.transactions, tx.id = txId := by
    have : txId ∈ b.transactions.map (fun tx => tx.id) := by
      rw [hids]
      simp
    obtain ⟨tx, htx, hid⟩ := List.mem_map.mp this
    exact ⟨tx, htx, hid⟩
  rw [generateMerkleProof_of_first E s pre post b txId hchain hpre hmem]
  have hidx : (b.transactions.map (fun tx => tx.id)).findIdx (fun id => decide (id = txId))
      = before.length := by
    rw [hids]
    exact findIdx_first_occurrence txId before after hbefore
  rw [hidx]

/-- Witness for C29: in the run `repeatedCalls` the block holds the ids `[102, 101, 101]`
and the proof for `101` is the one at index 1. -/
theorem generateMerkleProof_first_occurrence_witness :
    (run toyEthers repeatedCalls).chain.map (fun b => b.transactions.map (fun tx => tx.id))
        = [[102, 101, 101]] ∧
      generateMerkleProof toyEthers (run toyEthers repeatedCalls) 101
        = some (_generateProof toyEthers [102, 101, 101] 1) :=
  ⟨rfl,
    generateMerkleProof_first_occurrence toyEthers (run toyEthers repeatedCalls) []
      ((run toyEthers repeatedCalls).chain.drop 1)
      ((run toyEthers repeatedCalls).chain.get ⟨0, by decide⟩) 101 [102] [101]
      rfl (fun _ h => absurd h (List.not_mem_nil _)) rfl (by decide)⟩

/-- Witness for C27 on the run `sampleCalls`, whose two builds use the default and 100. -/
theorem no_empty_block_anchored_witness :
    (∀ c ∈ sampleCalls, Call.PositiveBatch c) ∧
      (run toyEthers sampleCalls).chain.map (fun b => b.transactionCount) = [3, 2] ∧
      ∀ b ∈ (run toyEthers sampleCalls).chain, 1 ≤ b.transactionCount := by
  have hpos : ∀ c ∈ sampleCalls, Call.PositiveBatch c := by
    intro c hc
    simp only [sampleCalls, List.mem_cons, List.mem_singleton, List.not_mem_nil, or_false]
      at hc
    rcases hc with h | h | h | h | h | h | h <;> subst h <;>
      first
        | exact True.intro
        | (show (1 : Int) ≤ batchSize _; decide)
  exact ⟨hpos, rfl,
    (@no_empty_block_anchored Nat (List Nat) Nat _ Nat Nat toyEthers (fun hash => hash)
      sampleCalls hpos).2.1⟩

/-! ## Triggers while a cycle is in flight -/

theorem anchorPendingBlocks_begin_of_empty {M : Type} (E : Ethers D B P) (uri : D → M)
    (parsed : Option Int) (now : Nat) (s : AnchorState D P M)
    (h : s.chainService.pendingTransactions.length = 0) :
    anchorPendingBlocks_begin E uri parsed now s = (none, s) := by
  unfold anchorPendingBlocks_begin
  rw [buildBlock_of_empty E parsed now s.chainService h]

theorem anchorPendingBlocks_begin_of_nonempty {M : Type} (E : Ethers D B P) (uri : D → M)
    (parsed : Option Int) (now : Nat) (s : AnchorState D P M)
    (h : ¬ s.chainService.pendingTransactions.length = 0) :
    ∃ b : Block D P,
      (buildBlock E parsed now s.chainService).1 = some b ∧
        anchorPendingBlocks_begin E uri parsed now s
          = (some b,
              { chainService :=
                  { chain := s.chainService.chain ++ [b]
                    pendingTransactions :=
                      s.chainService.pendingTransactions.drop (batchSize parsed).toNat }
                anchorCalls := s.anchorCalls ++
                  [{ merkleRoot := b.merkleRoot, transactionCount := b.transactionCount,
                     metadataURI := uri b.hash }] }) := by
  obtain ⟨b, hb, -⟩ := buildBlock_of_nonempty E parsed now s.chainService h
  refine ⟨b, by rw [hb], ?_⟩
  unfold anchorPendingBlocks_begin
  rw [hb]

theorem anchorPendingBlocks_snd_eq_begin {M R : Type} (E : Ethers D B P) (uri : D → M)
    (parsed : Option Int) (now : Nat) (outcome : CommitOutcome R) (s : AnchorState D P M) :
    (anchorPendingBlocks E uri parsed now outcome s).2
      = (anchorPendingBlocks_begin E uri parsed now s).2 := by
  by_cases h : s.chainService.pendingTransactions.length = 0
  · rw [anchorPendingBlocks_of_empty E uri parsed now outcome s h,
      anchorPendingBlocks_begin_of_empty E uri parsed now s h]
  · obtain ⟨b, hb, hstate, -⟩ := anchorPendingBlocks_of_nonempty E uri parsed now outcome s h
    obtain ⟨b2, hb2, hbegin⟩ := anchorPendingBlocks_begin_of_nonempty E uri parsed now s h
    obtain ⟨-, hbuild, -⟩ := buildBlock_eq_some E parsed now s.chainService b hb
    have hbb : b2 = b := by
      rw [hb] at hb2
      exact (Option.some.inj hb2).symm
    subst hbb
    rw [hstate, hbegin, hbuild]

/-- C21 as stated fails: there is no mutual exclusion. With one cycle suspended at its
commit and one payload still pending, a second trigger builds a second block and sends a
second call of `anchorBlock`; two cycles are then in flight. -/
theorem trigger_while_in_flight_builds :
    oneCycleInFlight.awaiting.length = 1 ∧
      oneCycleInFlight.state.chainService.chain.length = 1 ∧
      oneCycleInFlight.state.anchorCalls.length = 1 ∧
      (trigger toyEthers (fun hash => hash) (some 2) 30
          oneCycleInFlight).state.chainService.chain.length = 2 ∧
      (trigger toyEthers (fun hash => hash) (some 2) 30
          oneCycleInFlight).state.anchorCalls.length = 2 ∧
      (trigger toyEthers (fun hash => hash) (some 2) 30 oneCycleInFlight).awaiting.length = 2 :=
  ⟨rfl, rfl, rfl, rfl, rfl, rfl⟩

/-- C21, amended: the timer path and the manual trigger both run `anchorPendingBlocks`,
and a trigger does the same whether or not earlier cycles are still awaiting their
commits: on a non-empty queue it builds a block, sends its own call of `anchorBlock` and
becomes one more cycle in flight; it is a no-op exactly when the queue is empty. -/
theorem trigger_ignores_cycles_in_flight {M R : Type} (E : Ethers D B P) (uri : D → M)
    (parsed : Option Int) (now : Nat) (l : AnchorLoop D P M) :
    (trigger E uri parsed now l).state
        = (trigger E uri parsed now { state := l.state, awaiting := [] }).state ∧
      (∀ outcome : CommitOutcome R,
        (anchorPendingBlocks E uri parsed now outcome l.state).2
          = (trigger E uri parsed now l).state) ∧
      (l.state.chainService.pendingTransactions = [] → trigger E uri parsed now l = l) ∧
      (l.state.chainService.pendingTransactions ≠ [] →
        ∃ b : Block D P,
          (buildBlock E parsed now l.state.chainService).1 = some b ∧
            (trigger E uri parsed now l).state.chainService.chain
              = l.state.chainService.chain ++ [b] ∧
            (trigger E uri parsed now l).state.anchorCalls
              = l.state.anchorCalls ++
                  [{ merkleRoot := b.merkleRoot, transactionCount := b.transactionCount,
                     metadataURI := uri b.hash }] ∧
            (trigger E uri parsed now l).awaiting = l.awaiting ++ [b]) := by
  have hstate : ∀ l1 : AnchorLoop D P M,
      (trigger E uri parsed now l1).state
        = (anchorPendingBlocks_begin E uri parsed now l1.state).2 := by
    intro l1
    unfold trigger
    cases hbegin : anchorPendingBlocks_begin E uri parsed now l1.state with
    | mk block state =>
      cases block <;> rfl
  refine ⟨?_, ?_, ?_, ?_⟩
  · rw [hstate l, hstate { state := l.state, awaiting := [] }]
  · intro outcome
    rw [hstate l, anchorPendingBlocks_snd_eq_begin]
  · intro h0
    have hq : l.state.chainService.pendingTransactions.length = 0 := by
      rw [h0]
      rfl
    unfold trigger
    rw [anchorPendingBlocks_begin_of_empty E uri parsed now l.state hq]
  · intro hne
    have hq : ¬ l.state.chainService.pendingTransactions.length = 0 :=
      fun h0 => hne (List.length_eq_zero.mp h0)
    obtain ⟨b, hb, hbegin⟩ := anchorPendingBlocks_begin_of_nonempty E uri parsed now l.state hq
    refine ⟨b, hb, ?_, ?_, ?_⟩
    · unfold trigger
      rw [hbegin]
    · unfold trigger
      rw [hbegin]
    · unfold trigger
      rw [hbegin]

/-- Witness for the amended C21: the second trigger on `oneCycleInFlight` ends in the same
state as a cycle run on its own from that state. -/
theorem trigger_ignores_cycles_in_flight_witness :
    oneCycleInFlight.awaiting.length = 1 ∧
      (anchorPendingBlocks toyEthers (fun hash => hash) (some 2) 30
          (CommitOutcome.committed 7) oneCycleInFlight.state).2
        = (trigger toyEthers (fun hash => hash) (some 2) 30 oneCycleInFlight).state :=
  ⟨rfl,
    (trigger_ignores_cycles_in_flight toyEthers (fun hash => hash) (some 2) 30
      oneCycleInFlight).2.1 (CommitOutcome.committed 7)⟩

end AHIN
